import Mathlib

/-!
Verification of the tap proxy (scripts/yunyi_tap_proxy.py).

The script relays HTTP requests to a fixed upstream HTTPS origin.  We give a
shallow embedding of its pure core: header sanitization (TapProxyHandler._forward),
log redaction (_redact_header), body capture (TapProxyHandler._read_body),
response-header copying, the body-streaming loop, and the JSON pretty-printing
used by the request logger (_try_pretty_json).

Inbound and outbound header collections are modelled as ordered lists of
(name, value) pairs, matching `self.headers.items()` (duplicates preserved,
original casing preserved).  Python dicts (insertion ordered, exact-key lookup,
assignment to an existing key updates in place) are modelled as association
lists with `dictUpd`.  Bytes are modelled as `List Nat`.  Header names are
ASCII, so Python's `str.lower` is modelled by `String.lower`.
-/

/-- Python `str.lower` restricted to ASCII (header names in this program are
ASCII): lowercase every character.  Defined by structural recursion over the
character list so that it evaluates inside `decide`/`rfl`. -/
def String.lower (s : String) : String :=
  String.mk (s.data.map Char.toLower)

namespace TapProxy

/-- The hop-by-hop header name set of `TapProxyHandler._forward`
(variable `hop_by_hop` in the source). -/
def hop_by_hop : List String :=
  ["connection", "keep-alive", "proxy-authenticate", "proxy-authorization",
   "te", "trailers", "transfer-encoding", "upgrade"]

/-- The module-level `SENSITIVE_HEADERS` set. -/
def SENSITIVE_HEADERS : List String :=
  ["authorization", "cookie", "set-cookie"]

/-- `_redact_header`: return "[REDACTED]" for sensitive names (compared on the
lowercased name), the value unchanged otherwise. -/
def redact_header (name value : String) : String :=
  if name.lower ∈ SENSITIVE_HEADERS then "[REDACTED]" else value

/-- Python dict assignment `d[k] = v` on an insertion-ordered dict represented
as an association list: an existing key keeps its position and gets the new
value, a fresh key is appended at the end. -/
def dictUpd : List (String × String) → String → String → List (String × String)
  | [], k, v => [(k, v)]
  | (k', v') :: d, k, v =>
    if k' = k then (k, v) :: d else (k', v') :: dictUpd d k v

/-- One iteration of the header-copy loop in `_forward`: skip hop-by-hop
names and the inbound Host (on the lowercased name), otherwise store the
pair in the `forward_headers` dict. -/
def carry_step (d : List (String × String)) (kv : String × String) :
    List (String × String) :=
  if kv.1.lower ∈ hop_by_hop then d
  else if kv.1.lower = "host" then d
  else dictUpd d kv.1 kv.2

/-- The ForwardedHeaderSet built by `_forward`: fold the copy loop over the
inbound headers, then `forward_headers["Host"] = self.upstream_host`. -/
def forward_headers (headers : List (String × String)) (upstream_host : String) :
    List (String × String) :=
  dictUpd (headers.foldl carry_step []) "Host" upstream_host

theorem mem_dictUpd {p : String × String} :
    ∀ {d : List (String × String)} {k v : String},
      p ∈ dictUpd d k v → p = (k, v) ∨ p ∈ d := by
  intro d
  induction d with
  | nil =>
    intro k v h
    simp [dictUpd] at h
    exact Or.inl h
  | cons hd tl ih =>
    intro k v h
    obtain ⟨k', v'⟩ := hd
    by_cases hk : k' = k
    · simp only [dictUpd, if_pos hk] at h
      rcases List.mem_cons.mp h with h | h
      · exact Or.inl h
      · exact Or.inr (List.mem_cons_of_mem _ h)
    · simp only [dictUpd, if_neg hk] at h
      rcases List.mem_cons.mp h with h | h
      · exact Or.inr (h ▸ List.mem_cons_self _ _)
      · rcases ih h with h | h
        · exact Or.inl h
        · exact Or.inr (List.mem_cons_of_mem _ h)

theorem dictUpd_eq_append {d : List (String × String)} {k : String} (v : String)
    (h : ∀ p ∈ d, p.1 ≠ k) : dictUpd d k v = d ++ [(k, v)] := by
  induction d with
  | nil => rfl
  | cons hd tl ih =>
    obtain ⟨k', v'⟩ := hd
    have hk : k' ≠ k := h (k', v') (List.mem_cons_self _ _)
    simp only [dictUpd, if_neg hk, List.cons_append, List.cons.injEq, true_and]
    exact ih fun p hp => h p (List.mem_cons_of_mem _ hp)

theorem keys_dictUpd {x : String} :
    ∀ {d : List (String × String)} {k v : String},
      x ∈ (dictUpd d k v).map Prod.fst → x = k ∨ x ∈ d.map Prod.fst := by
  intro d k v h
  rcases List.mem_map.mp h with ⟨p, hp, hx⟩
  rcases mem_dictUpd hp with h' | h'
  · exact Or.inl (by rw [← hx, h'])
  · exact Or.inr (hx ▸ List.mem_map_of_mem Prod.fst h')

theorem nodup_keys_dictUpd {d : List (String × String)} {k v : String}
    (h : (d.map Prod.fst).Nodup) : ((dictUpd d k v).map Prod.fst).Nodup := by
  induction d with
  | nil => simp [dictUpd]
  | cons hd tl ih =>
    obtain ⟨k', v'⟩ := hd
    simp only [List.map_cons, List.nodup_cons] at h
    by_cases hk : k' = k
    · simp only [dictUpd, if_pos hk, List.map_cons, List.nodup_cons]
      exact ⟨hk ▸ h.1, h.2⟩
    · simp only [dictUpd, if_neg hk, List.map_cons, List.nodup_cons]
      refine ⟨fun hc => ?_, ih h.2⟩
      rcases keys_dictUpd hc with h' | h'
      · exact hk h'
      · exact h.1 h'

/-- Every pair produced by the copy loop has a name that is neither
hop-by-hop nor "host" after lowercasing. -/
theorem carried_prop :
    ∀ (hs acc : List (String × String)),
      (∀ p ∈ acc, p.1.lower ∉ hop_by_hop ∧ p.1.lower ≠ "host") →
      ∀ p ∈ hs.foldl carry_step acc,
        p.1.lower ∉ hop_by_hop ∧ p.1.lower ≠ "host" := by
  intro hs
  induction hs with
  | nil => intro acc hacc p hp; exact hacc p hp
  | cons kv tl ih =>
    intro acc hacc p hp
    rw [List.foldl_cons] at hp
    refine ih (carry_step acc kv) ?_ p hp
    intro q hq
    unfold carry_step at hq
    by_cases h1 : kv.1.lower ∈ hop_by_hop
    · rw [if_pos h1] at hq; exact hacc q hq
    · rw [if_neg h1] at hq
      by_cases h2 : kv.1.lower = "host"
      · rw [if_pos h2] at hq; exact hacc q hq
      · rw [if_neg h2] at hq
        rcases mem_dictUpd hq with h | h
        · rw [h]; exact ⟨h1, h2⟩
        · exact hacc q h

/-- Every pair produced by the copy loop is either from the accumulator or
an inbound pair, carried verbatim. -/
theorem carried_mem :
    ∀ (hs acc : List (String × String)), ∀ p ∈ hs.foldl carry_step acc,
      p ∈ acc ∨ p ∈ hs := by
  intro hs
  induction hs with
  | nil => intro acc p hp; exact Or.inl hp
  | cons kv tl ih =>
    intro acc p hp
    rw [List.foldl_cons] at hp
    rcases ih (carry_step acc kv) p hp with h | h
    · unfold carry_step at h
      by_cases h1 : kv.1.lower ∈ hop_by_hop
      · rw [if_pos h1] at h; exact Or.inl h
      · rw [if_neg h1] at h
        by_cases h2 : kv.1.lower = "host"
        · rw [if_pos h2] at h; exact Or.inl h
        · rw [if_neg h2] at h
          rcases mem_dictUpd h with h' | h'
          · exact Or.inr (by rw [h']; exact List.mem_cons_self _ _)
          · exact Or.inl h'
    · exact Or.inr (List.mem_cons_of_mem _ h)

theorem carried_nodup_keys :
    ∀ (hs acc : List (String × String)), (acc.map Prod.fst).Nodup →
      ((hs.foldl carry_step acc).map Prod.fst).Nodup := by
  intro hs
  induction hs with
  | nil => intro acc h; exact h
  | cons kv tl ih =>
    intro acc h
    rw [List.foldl_cons]
    refine ih (carry_step acc kv) ?_
    unfold carry_step
    by_cases h1 : kv.1.lower ∈ hop_by_hop
    · rw [if_pos h1]; exact h
    · rw [if_neg h1]
      by_cases h2 : kv.1.lower = "host"
      · rw [if_pos h2]; exact h
      · rw [if_neg h2]; exact nodup_keys_dictUpd h

/-- C1: the ForwardedHeaderSet contains no header whose name, compared
case-insensitively (i.e. after lowercasing), is one of the hop-by-hop names
connection, keep-alive, proxy-authenticate, proxy-authorization, te,
trailers, transfer-encoding, upgrade. -/
theorem forward_headers_no_hop_by_hop (hs : List (String × String)) (up : String) :
    ∀ p ∈ forward_headers hs up, p.1.lower ∉ hop_by_hop := by
  intro p hp
  unfold forward_headers at hp
  rcases mem_dictUpd hp with h | h
  · rw [h]; show ("Host" : String).lower ∉ hop_by_hop; decide
  · exact (carried_prop hs [] (by simp) p h).1

theorem forward_headers_no_hop_by_hop_witness :
    ("X-Custom" : String).lower ∉ hop_by_hop :=
  forward_headers_no_hop_by_hop
    [("Connection", "keep-alive"), ("X-Custom", "1")] "up.example"
    ("X-Custom", "1") (by decide)

/-- C2: the ForwardedHeaderSet contains exactly one header whose name is
case-insensitively equal to Host, and its value is the upstream host. -/
theorem forward_headers_host_unique (hs : List (String × String)) (up : String) :
    (forward_headers hs up).filter (fun p => p.1.lower == "host") =
      [("Host", up)] := by
  unfold forward_headers
  have hacc := carried_prop hs [] (by simp)
  have habs : ∀ p ∈ hs.foldl carry_step [], p.1 ≠ "Host" := by
    intro p hp heq
    exact (hacc p hp).2 (by rw [heq]; decide)
  rw [dictUpd_eq_append up habs, List.filter_append]
  have h1 : (hs.foldl carry_step []).filter (fun p => p.1.lower == "host") = [] := by
    rw [List.filter_eq_nil_iff]
    intro p hp
    simp [(hacc p hp).2]
  rw [h1]
  have hp : (("Host" : String).lower == "host") = true := by decide
  simp [List.filter_cons, hp]

/-- C9 counterexample: `forward_headers` is keyed by a Python dict, whose key
comparison is case-sensitive.  Two carried headers whose names differ only in
letter case therefore yield two distinct entries, not one: for the inbound
collection [("X-A", "1"), ("x-a", "2")] the ForwardedHeaderSet holds two
entries whose lowercased name is "x-a", refuting the claim that it holds a
single entry for that name. -/
theorem forward_headers_case_variant_two_entries :
    (forward_headers [("X-A", "1"), ("x-a", "2")] "up.example").filter
      (fun p => p.1.lower == "x-a") = [("X-A", "1"), ("x-a", "2")] := by decide

/-- C9 amended: the ForwardedHeaderSet is keyed by exact (case-sensitive)
name — names are compared case-insensitively only by the hop-by-hop/Host
omission checks — so its keys are pairwise distinct as strings, and every
entry other than the final Host entry is an inbound pair carried verbatim
(original casing and value preserved). -/
theorem forward_headers_exact_keys (hs : List (String × String)) (up : String) :
    ((forward_headers hs up).map Prod.fst).Nodup ∧
      ∀ p ∈ forward_headers hs up, p = ("Host", up) ∨ p ∈ hs := by
  constructor
  · exact nodup_keys_dictUpd (carried_nodup_keys hs [] (by simp))
  · intro p hp
    unfold forward_headers at hp
    rcases mem_dictUpd hp with h | h
    · exact Or.inl h
    · rcases carried_mem hs [] p h with h' | h'
      · exact absurd h' (List.not_mem_nil p)
      · exact Or.inr h'

theorem forward_headers_exact_keys_witness :
    (("x-a", "2") : String × String) = ("Host", "up.example") ∨
      ("x-a", "2") ∈ [("X-A", "1"), ("x-a", "2")] :=
  (forward_headers_exact_keys [("X-A", "1"), ("x-a", "2")] "up.example").2
    ("x-a", "2") (by decide)

/-- Exact-key lookup in a Python dict modelled as an association list. -/
def dictLookup : List (String × String) → String → Option String
  | [], _ => none
  | (k', v') :: d, k => if k' = k then some v' else dictLookup d k

theorem dictLookup_dictUpd_self (d : List (String × String)) (k v : String) :
    dictLookup (dictUpd d k v) k = some v := by
  induction d with
  | nil => simp [dictUpd, dictLookup]
  | cons hd tl ih =>
    obtain ⟨k', v'⟩ := hd
    by_cases hk : k' = k
    · simp [dictUpd, dictLookup, hk]
    · simp [dictUpd, dictLookup, hk, ih]

theorem dictLookup_dictUpd_other {d : List (String × String)} {k k' : String}
    (v : String) (h : k ≠ k') : dictLookup (dictUpd d k' v) k = dictLookup d k := by
  have h' : k' ≠ k := Ne.symm h
  induction d with
  | nil => simp [dictUpd, dictLookup, h']
  | cons hd tl ih =>
    obtain ⟨k0, v0⟩ := hd
    by_cases hk : k0 = k'
    · subst hk
      simp [dictUpd, dictLookup, h']
    · simp [dictUpd, dictLookup, hk, ih]

theorem dictLookup_mem {d : List (String × String)} {k v : String}
    (h : dictLookup d k = some v) : (k, v) ∈ d := by
  induction d with
  | nil => simp [dictLookup] at h
  | cons hd tl ih =>
    obtain ⟨k', v'⟩ := hd
    by_cases hk : k' = k
    · simp only [dictLookup, if_pos hk] at h
      injection h with h
      exact List.mem_cons.mpr (Or.inl (by rw [hk, h]))
    · simp only [dictLookup, if_neg hk] at h
      exact List.mem_cons_of_mem _ (ih h)

/-- If no inbound pair after this point carries the key, the copy loop leaves
the lookup of that key unchanged. -/
theorem fold_lookup_stable :
    ∀ (hs acc : List (String × String)) (k : String),
      (∀ p ∈ hs, p.1 ≠ k) →
      dictLookup (hs.foldl carry_step acc) k = dictLookup acc k := by
  intro hs
  induction hs with
  | nil => intro acc k _; rfl
  | cons kv tl ih =>
    intro acc k h
    rw [List.foldl_cons]
    rw [ih (carry_step acc kv) k fun p hp => h p (List.mem_cons_of_mem _ hp)]
    unfold carry_step
    by_cases h1 : kv.1.lower ∈ hop_by_hop
    · rw [if_pos h1]
    · rw [if_neg h1]
      by_cases h2 : kv.1.lower = "host"
      · rw [if_pos h2]
      · rw [if_neg h2]
        exact dictLookup_dictUpd_other kv.2 fun e =>
          h kv (List.mem_cons_self _ _) e.symm

/-- If a name occurs among the inbound headers, always with the same value,
and is not skipped by the copy loop, the loop's dict maps the name to that
value. -/
theorem fold_lookup_carried :
    ∀ (hs acc : List (String × String)) (name value : String),
      name.lower ∉ hop_by_hop → name.lower ≠ "host" →
      (name, value) ∈ hs → (∀ p ∈ hs, p.1 = name → p.2 = value) →
      dictLookup (hs.foldl carry_step acc) name = some value := by
  intro hs
  induction hs with
  | nil => intro acc name value _ _ hmem _; exact absurd hmem (List.not_mem_nil _)
  | cons kv tl ih =>
    intro acc name value hn1 hn2 hmem hall
    rw [List.foldl_cons]
    by_cases htl : ∀ p ∈ tl, p.1 ≠ name
    · have hkv : kv = (name, value) := by
        rcases List.mem_cons.mp hmem with h | h
        · exact h.symm
        · exact absurd rfl (htl _ h)
      rw [fold_lookup_stable tl _ name htl]
      rw [hkv]
      unfold carry_step
      rw [if_neg (by simpa using hn1), if_neg (by simpa using hn2)]
      exact dictLookup_dictUpd_self acc name value
    · push_neg at htl
      obtain ⟨p, hp, hpk⟩ := htl
      have hpv : p.2 = value := hall p (List.mem_cons_of_mem _ hp) hpk
      have : (name, value) ∈ tl := by
        have : p = (name, value) := Prod.ext hpk hpv
        exact this ▸ hp
      exact ih (carry_step acc kv) name value hn1 hn2 this
        fun q hq hqk => hall q (List.mem_cons_of_mem _ hq) hqk

theorem sensitive_not_skipped {name : String}
    (h : name.lower ∈ SENSITIVE_HEADERS) :
    name.lower ∉ hop_by_hop ∧ name.lower ≠ "host" ∧ name ≠ "Host" := by
  simp only [SENSITIVE_HEADERS, List.mem_cons, List.not_mem_nil, or_false] at h
  have hne : name.lower ≠ "host" := by
    rcases h with h | h | h <;> rw [h] <;> decide
  refine ⟨fun hc => ?_, hne, fun hc => hne (by rw [hc]; decide)⟩
  rcases h with h | h | h <;> rw [h] at hc <;> revert hc <;> decide

/-- C3 counterexample: the claim quantifies over every value and asserts that
the logged rendering is never the original value; instantiating the value at
the redaction marker itself makes the rendering equal to the original value.
Here the logged rendering of the sensitive header Authorization with value
"[REDACTED]" is exactly that original value. -/
theorem redact_header_marker_fixed_point :
    ("Authorization" : String).lower ∈ SENSITIVE_HEADERS ∧
      redact_header "Authorization" "[REDACTED]" = "[REDACTED]" := by decide

/-- C3 amended: for every header name in the sensitive set (any letter
casing) and every value, the logged rendering is the literal redaction
marker "[REDACTED]", and differs from the original value whenever the value
is not itself the marker; the ForwardedHeaderSet still carries that header
with its original value unchanged (stated for names all of whose inbound
occurrences carry that value, since the Python dict keeps the last value
per exact key). -/
theorem redact_header_redacts_log_only (name value : String)
    (h : name.lower ∈ SENSITIVE_HEADERS) :
    redact_header name value = "[REDACTED]" ∧
      (value ≠ "[REDACTED]" → redact_header name value ≠ value) ∧
      ∀ (hs : List (String × String)) (up : String),
        (name, value) ∈ hs → (∀ p ∈ hs, p.1 = name → p.2 = value) →
        (name, value) ∈ forward_headers hs up := by
  obtain ⟨hn1, hn2, hn3⟩ := sensitive_not_skipped h
  refine ⟨by simp [redact_header, h], ?_, ?_⟩
  · intro hv
    simp only [redact_header, if_pos h]
    exact fun e => hv e.symm
  · intro hs up hmem hall
    apply dictLookup_mem
    unfold forward_headers
    rw [dictLookup_dictUpd_other up hn3]
    exact fold_lookup_carried hs [] name value hn1 hn2 hmem hall

theorem redact_header_redacts_log_only_witness :
    redact_header "Authorization" "Bearer secret123" = "[REDACTED]" ∧
      ("Authorization", "Bearer secret123") ∈
        forward_headers [("Authorization", "Bearer secret123"), ("Accept", "*")]
          "up.example" := by
  have h := redact_header_redacts_log_only "Authorization" "Bearer secret123"
    (by decide)
  exact ⟨h.1, h.2.2 [("Authorization", "Bearer secret123"), ("Accept", "*")]
    "up.example" (by decide) (by decide)⟩

/-- The response-header copy loop of `_forward`: write every upstream
response header to the client except those whose lowercased name is
"transfer-encoding". -/
def copy_resp_headers : List (String × String) → List (String × String)
  | [] => []
  | (k, v) :: rest =>
    if k.lower = "transfer-encoding" then copy_resp_headers rest
    else (k, v) :: copy_resp_headers rest

/-- C4: no header whose name is case-insensitively transfer-encoding is among
the headers copied from the upstream response to the client, and every other
upstream response header is copied. -/
theorem copy_resp_headers_spec (hs : List (String × String)) :
    (∀ p ∈ copy_resp_headers hs, p.1.lower ≠ "transfer-encoding") ∧
      ∀ p ∈ hs, p.1.lower ≠ "transfer-encoding" → p ∈ copy_resp_headers hs := by
  induction hs with
  | nil => exact ⟨fun p hp => absurd hp (List.not_mem_nil p), fun p hp => absurd hp (List.not_mem_nil p)⟩
  | cons hd tl ih =>
    obtain ⟨k, v⟩ := hd
    by_cases hk : k.lower = "transfer-encoding"
    · constructor
      · intro p hp
        rw [show copy_resp_headers ((k, v) :: tl) = copy_resp_headers tl by
          simp [copy_resp_headers, hk]] at hp
        exact ih.1 p hp
      · intro p hp hne
        rcases List.mem_cons.mp hp with h | h
        · exact absurd (h ▸ hk) hne
        · rw [show copy_resp_headers ((k, v) :: tl) = copy_resp_headers tl by
            simp [copy_resp_headers, hk]]
          exact ih.2 p h hne
    · have hrw : copy_resp_headers ((k, v) :: tl) = (k, v) :: copy_resp_headers tl := by
        simp [copy_resp_headers, hk]
      constructor
      · intro p hp
        rw [hrw] at hp
        rcases List.mem_cons.mp hp with h | h
        · rw [h]; exact hk
        · exact ih.1 p h
      · intro p hp hne
        rw [hrw]
        rcases List.mem_cons.mp hp with h | h
        · exact List.mem_cons.mpr (Or.inl h)
        · exact List.mem_cons_of_mem _ (ih.2 p h hne)

theorem copy_resp_headers_spec_witness :
    (("Content-Type", "text/event-stream") : String × String).1.lower ≠
        "transfer-encoding" ∧
      ("Content-Type", "text/event-stream") ∈
        copy_resp_headers
          [("Transfer-Encoding", "chunked"), ("Content-Type", "text/event-stream")] :=
  ⟨(copy_resp_headers_spec
      [("Transfer-Encoding", "chunked"), ("Content-Type", "text/event-stream")]).1
      ("Content-Type", "text/event-stream") (by decide),
   (copy_resp_headers_spec
      [("Transfer-Encoding", "chunked"), ("Content-Type", "text/event-stream")]).2
      ("Content-Type", "text/event-stream") (by decide) (by decide)⟩

/-- `email.message.Message.get`, used by `self.headers.get("Content-Length")`:
return the value of the first header whose name matches case-insensitively,
or None. -/
def headers_get : List (String × String) → String → Option String
  | [], _ => none
  | (k, v) :: rest, name =>
    if k.lower = name.lower then some v else headers_get rest name

def isPySpace (c : Char) : Bool :=
  c = ' ' || c = '\t' || c = '\n' || c = '\r' || c = Char.ofNat 11 || c = Char.ofNat 12

/-- Python `str.strip()` (ASCII whitespace). -/
def pyStrip (cs : List Char) : List Char :=
  (((cs.dropWhile isPySpace).reverse).dropWhile isPySpace).reverse

/-- Digit run of `int(str)` after the first digit: single underscores are
allowed between digits (Python 3.6+), never leading, trailing or doubled. -/
def pyDigitsTail (acc : Nat) : List Char → Option Nat
  | [] => some acc
  | c :: rest =>
    if c.isDigit then pyDigitsTail (acc * 10 + (c.toNat - 48)) rest
    else if c = '_' then
      match rest with
      | [] => none
      | d :: rest2 =>
        if d.isDigit then pyDigitsTail (acc * 10 + (d.toNat - 48)) rest2 else none
    else none

def pyDigits : List Char → Option Nat
  | [] => none
  | c :: rest => if c.isDigit then pyDigitsTail (c.toNat - 48) rest else none

/-- Python `int(s)` (base 10, ASCII digits): strip whitespace, optional sign,
digits with optional single underscores between digits; None models
ValueError. -/
def pyIntParse (s : String) : Option Int :=
  match pyStrip s.data with
  | '+' :: rest => (pyDigits rest).map fun n => (n : Int)
  | '-' :: rest => (pyDigits rest).map fun n => -(n : Int)
  | cs => (pyDigits cs).map fun n => (n : Int)

/-- `rfile.read(n)` on the remaining input of the client connection: a
negative size reads until EOF (the whole remaining input), a non-negative
size reads at most n bytes. -/
def streamRead (stream : List Nat) (n : Int) : List Nat :=
  if n < 0 then stream else stream.take n.toNat

/-- `TapProxyHandler._read_body`: missing Content-Length or a falsy (empty)
value gives no body; a value that fails `int()` gives no body; otherwise
read that many bytes from the client stream. -/
def read_body (hs : List (String × String)) (stream : List Nat) : List Nat :=
  match headers_get hs "Content-Length" with
  | none => []
  | some l =>
    if l = "" then []
    else
      match pyIntParse l with
      | none => []
      | some n => streamRead stream n

/-- The `body=body if body else None` argument of `conn.request` in
`_forward`: an empty body is replaced by the absent-body sentinel None. -/
def body_arg (b : List Nat) : Option (List Nat) :=
  if b = [] then none else some b

/-- C7: when Content-Length is absent or does not parse as an integer the
captured body is empty, and an empty captured body makes the upstream
request carry the absent-body sentinel (None), not a zero-length body. -/
theorem read_body_malformed_length (hs : List (String × String))
    (stream : List Nat)
    (h : headers_get hs "Content-Length" = none ∨
      ∃ l, headers_get hs "Content-Length" = some l ∧ pyIntParse l = none) :
    read_body hs stream = [] ∧ body_arg (read_body hs stream) = none := by
  have hb : read_body hs stream = [] := by
    rcases h with h | ⟨l, hl, hp⟩
    · simp [read_body, h]
    · by_cases he : l = ""
      · simp [read_body, hl, he]
      · simp [read_body, hl, he, hp]
  exact ⟨hb, by rw [hb]; rfl⟩

theorem read_body_malformed_length_witness :
    read_body [("Content-Length", "abc")] [1, 2, 3] = [] ∧
      body_arg (read_body [("Content-Length", "abc")] [1, 2, 3]) = none :=
  read_body_malformed_length [("Content-Length", "abc")] [1, 2, 3]
    (Or.inr ⟨"abc", by decide, by decide⟩)

/-- C10: a Content-Length value that parses as a negative integer is not
treated as "no body"; the negative count reaches `rfile.read`, whose
negative-size semantics is read-until-EOF, so the captured body is the
entire remaining client input. -/
theorem read_body_negative_length (hs : List (String × String))
    (stream : List Nat) (l : String) (n : Int)
    (hl : headers_get hs "Content-Length" = some l)
    (hp : pyIntParse l = some n) (hn : n < 0) :
    read_body hs stream = stream := by
  have hne : l ≠ "" := by
    intro he
    rw [he] at hp
    simp [pyIntParse, pyStrip, pyDigits] at hp
  simp [read_body, hl, hne, hp, streamRead, hn]

theorem read_body_negative_length_witness :
    read_body [("Content-Length", "-5")] [7, 8, 9] = [7, 8, 9] :=
  read_body_negative_length [("Content-Length", "-5")] [7, 8, 9] "-5" (-5)
    (by decide) (by decide) (by decide)

/-- Exceptions that a socket write can raise when the peer has disconnected. -/
inductive NetErr where
  | brokenPipe
  | connReset
deriving DecidableEq

/-- Outcome of the response-streaming loop of `_forward`: the chunks written
to the client socket, whether `conn.close()` was reached, and the exception
escaping the loop, if any. -/
structure StreamOutcome where
  sent : List (List Nat)
  upstreamClosed : Bool
  escaped : Option NetErr
deriving DecidableEq

/-- The body-streaming loop of `_forward` followed by `conn.close()`.
`chunks` are the successive returns of `resp.read(8192)` (an empty chunk
ends the stream); `writeErr i` / `flushErr i` model the exception, if any,
raised by `self.wfile.write` / `self.wfile.flush` on the i-th chunk.
Only the flush call is wrapped in `try/except BrokenPipeError: break`;
a write failure, or a ConnectionResetError from flush, propagates out of
`_forward`, skipping `conn.close()`. -/
def stream_loop (chunks : List (List Nat))
    (writeErr flushErr : Nat → Option NetErr) (i : Nat) : StreamOutcome :=
  match chunks with
  | [] => ⟨[], true, none⟩
  | c :: rest =>
    if c = [] then ⟨[], true, none⟩
    else
      match writeErr i with
      | some e => ⟨[], false, some e⟩
      | none =>
        match flushErr i with
        | some NetErr.brokenPipe => ⟨[c], true, none⟩
        | some NetErr.connReset => ⟨[c], false, some NetErr.connReset⟩
        | none =>
          let o := stream_loop rest writeErr flushErr (i + 1)
          ⟨c :: o.sent, o.upstreamClosed, o.escaped⟩

/-- C8 (code bug): a client disconnect that raises BrokenPipeError from
`self.wfile.write(chunk)` — the unbuffered write path, which is where
http.server surfaces a disconnect, since with wbufsize = 0 flush is a no-op
— escapes the streaming loop unhandled and skips `conn.close()`; the
claimed silent termination with the upstream closed only happens when the
exception is a BrokenPipeError raised by flush. -/
theorem stream_loop_write_broken_pipe_escapes :
    stream_loop [[1]] (fun _ => some NetErr.brokenPipe) (fun _ => none) 0 =
        ⟨[], false, some NetErr.brokenPipe⟩ ∧
      stream_loop [[1]] (fun _ => none) (fun _ => some NetErr.connReset) 0 =
        ⟨[[1]], false, some NetErr.connReset⟩ ∧
      stream_loop [[1]] (fun _ => none) (fun _ => some NetErr.brokenPipe) 0 =
        ⟨[[1]], true, none⟩ ∧
      stream_loop [[1], [2]] (fun _ => none) (fun _ => none) 0 =
        ⟨[[1], [2]], true, none⟩ := by
  refine ⟨rfl, rfl, rfl, rfl⟩

/-!
JSON model for `_try_pretty_json`.

`json.loads` / `json.dumps(obj, ensure_ascii=False, indent=2)` are embedded
over a JSON value type.  Two documented restrictions of the model:

* numeric literals are integers; Python additionally parses floating-point
  literals (and NaN/Infinity), which are outside this embedding — a body
  containing them is treated as unparseable here;
* a `\uXXXX` escape denoting a lone surrogate yields a Python `str`
  containing a lone surrogate, which `String` cannot represent; the model
  treats it as a parse failure.  Paired surrogate escapes are combined as
  Python does.

Objects are Python dicts built key by key (`pairs[key] = value` in
`json/decoder.py`): last value per key wins, first occurrence keeps its
position; this is `mUpd` below.
-/

mutual
inductive Json where
  | null : Json
  | bool : Bool → Json
  | int : Int → Json
  | str : String → Json
  | arr : JList → Json
  | obj : JMembers → Json
inductive JList where
  | nil : JList
  | cons : Json → JList → JList
inductive JMembers where
  | nil : JMembers
  | cons : String → Json → JMembers → JMembers
end

def digitChar48 (n : Nat) : Char := Char.ofNat (48 + n)

/-- Decimal digits of a natural number, most significant first (Python
`repr` of a non-negative int). -/
def natDigs (n : Nat) : List Char :=
  if _ : n < 10 then [digitChar48 n]
  else natDigs (n / 10) ++ [digitChar48 (n % 10)]
termination_by n
decreasing_by exact Nat.div_lt_self (by omega) (by omega)

/-- Python `repr` of an int. -/
def intChars (n : Int) : List Char :=
  if n < 0 then '-' :: natDigs n.natAbs else natDigs n.natAbs

def hexDigitChar (n : Nat) : Char :=
  if n < 10 then Char.ofNat (48 + n) else Char.ofNat (87 + n)

def bsChar : Char := Char.ofNat 8
def ffChar : Char := Char.ofNat 12
def lbrace : Char := Char.ofNat 123
def rbrace : Char := Char.ofNat 125

/-- String escaping of `json.dumps` with ensure_ascii=False: only the
quote, the backslash and control characters are escaped; the five controls
with short escapes use them, the rest use a lowercase 4-digit form. -/
def escapeChar (c : Char) : List Char :=
  if c = '"' then ['\\', '"']
  else if c = '\\' then ['\\', '\\']
  else if c = '\n' then ['\\', 'n']
  else if c = '\r' then ['\\', 'r']
  else if c = '\t' then ['\\', 't']
  else if c = bsChar then ['\\', 'b']
  else if c = ffChar then ['\\', 'f']
  else if c.toNat < 32 then
    ['\\', 'u', '0', '0', hexDigitChar (c.toNat / 16), hexDigitChar (c.toNat % 16)]
  else [c]

def escChars : List Char → List Char
  | [] => []
  | c :: rest => escapeChar c ++ escChars rest

def indentChars (lvl : Nat) : List Char := List.replicate (2 * lvl) ' '

def nlInd (lvl : Nat) : List Char := '\n' :: indentChars lvl

mutual
/-- `json.dumps(obj, ensure_ascii=False, indent=2)` at nesting level lvl. -/
def printVal : Nat → Json → List Char
  | _, .null => ['n', 'u', 'l', 'l']
  | _, .bool true => ['t', 'r', 'u', 'e']
  | _, .bool false => ['f', 'a', 'l', 's', 'e']
  | _, .int n => intChars n
  | _, .str s => '"' :: (escChars s.data ++ ['"'])
  | _, .arr .nil => ['[', ']']
  | lvl, .arr (.cons x xs) =>
    '[' :: (nlInd (lvl + 1) ++ (printVal (lvl + 1) x ++
      (printItems (lvl + 1) xs ++ (nlInd lvl ++ [']']))))
  | _, .obj .nil => [lbrace, rbrace]
  | lvl, .obj (.cons k v ps) =>
    lbrace :: (nlInd (lvl + 1) ++ (printMember (lvl + 1) k v ++
      (printMembers (lvl + 1) ps ++ (nlInd lvl ++ [rbrace]))))
def printMember (lvl : Nat) (k : String) (v : Json) : List Char :=
  '"' :: (escChars k.data ++ ('"' :: ':' :: ' ' :: printVal lvl v))
def printItems : Nat → JList → List Char
  | _, .nil => []
  | lvl, .cons x xs => ',' :: (nlInd lvl ++ (printVal lvl x ++ printItems lvl xs))
def printMembers : Nat → JMembers → List Char
  | _, .nil => []
  | lvl, .cons k v ps =>
    ',' :: (nlInd lvl ++ (printMember lvl k v ++ printMembers lvl ps))
end

def jsonDumps (v : Json) : String := String.mk (printVal 0 v)

def isWsChar (c : Char) : Bool := c = ' ' || c = '\t' || c = '\n' || c = '\r'

def skipWs (cs : List Char) : List Char := cs.dropWhile isWsChar

def hexVal (c : Char) : Option Nat :=
  if 48 ≤ c.toNat ∧ c.toNat ≤ 57 then some (c.toNat - 48)
  else if 97 ≤ c.toNat ∧ c.toNat ≤ 102 then some (c.toNat - 87)
  else if 65 ≤ c.toNat ∧ c.toNat ≤ 70 then some (c.toNat - 55)
  else none

def pcons (c : Char) : Option (List Char × List Char) → Option (List Char × List Char)
  | some (cs, r) => some (c :: cs, r)
  | none => none

/-- Decoded character of a single-letter escape sequence. -/
def escCharOf (e : Char) : Option Char :=
  if e = '"' then some '"'
  else if e = '\\' then some '\\'
  else if e = '/' then some '/'
  else if e = 'b' then some bsChar
  else if e = 'f' then some ffChar
  else if e = 'n' then some '\n'
  else if e = 'r' then some '\r'
  else if e = 't' then some '\t'
  else none

mutual
/-- JSON string scanner (`py_scanstring`, strict mode): the opening quote is
already consumed; raw control characters are rejected, the eight short
escapes and 4-digit hex escapes (with surrogate pairing) are decoded.
The fuel is at least the remaining input length plus one at every call
site, which is always sufficient (each step consumes at least one
character per unit of fuel). -/
def parseStringChars : Nat → List Char → Option (List Char × List Char)
  | 0, _ => none
  | _ + 1, [] => none
  | f + 1, c :: rest =>
    if c = '"' then some ([], rest)
    else if c = '\\' then parseEscapeSeq f rest
    else if c.toNat < 32 then none
    else pcons c (parseStringChars f rest)
/-- The character after a backslash. -/
def parseEscapeSeq : Nat → List Char → Option (List Char × List Char)
  | 0, _ => none
  | _ + 1, [] => none
  | f + 1, e :: r =>
    if e = 'u' then parseHexEscape f r
    else
      match escCharOf e with
      | some d => pcons d (parseStringChars f r)
      | none => none
/-- The four hex digits after a `u` escape. -/
def parseHexEscape : Nat → List Char → Option (List Char × List Char)
  | 0, _ => none
  | f + 1, cs =>
    match cs with
    | h1 :: h2 :: h3 :: h4 :: r2 =>
      match hexVal h1, hexVal h2, hexVal h3, hexVal h4 with
      | some a, some b, some c2, some d =>
        let code := a * 4096 + b * 256 + c2 * 16 + d
        if code < 55296 ∨ 57343 < code then
          pcons (Char.ofNat code) (parseStringChars f r2)
        else if code ≤ 56319 then parseLowSurrogate f code r2
        else none
      | _, _, _, _ => none
    | _ => none
/-- The second half of a surrogate pair escape. -/
def parseLowSurrogate : Nat → Nat → List Char → Option (List Char × List Char)
  | 0, _, _ => none
  | f + 1, hi, cs =>
    match cs with
    | '\\' :: 'u' :: g1 :: g2 :: g3 :: g4 :: r3 =>
      match hexVal g1, hexVal g2, hexVal g3, hexVal g4 with
      | some a, some b, some c2, some d =>
        let lo := a * 4096 + b * 256 + c2 * 16 + d
        if 56320 ≤ lo ∧ lo ≤ 57343 then
          pcons (Char.ofNat (65536 + (hi - 55296) * 1024 + (lo - 56320)))
            (parseStringChars f r3)
        else none
      | _, _, _, _ => none
    | _ => none
end

def digitsToNat : Nat → List Char → Nat
  | acc, [] => acc
  | acc, c :: rest => digitsToNat (acc * 10 + (c.toNat - 48)) rest

/-- The character class [0-9] of Python's JSON number grammar. -/
def isDig (c : Char) : Bool := 48 ≤ c.toNat && c.toNat ≤ 57

/-- The integer part of Python's JSON number grammar `(0 | [1-9][0-9]*)`:
a leading 0 is a complete literal, otherwise digits are taken greedily. -/
def parseNat : List Char → Option (Nat × List Char)
  | [] => none
  | c :: cs =>
    if c = '0' then some (0, cs)
    else if isDig c then
      some (digitsToNat (c.toNat - 48) (cs.takeWhile isDig), cs.dropWhile isDig)
    else none

/-- `pairs[key] = value` on the insertion-ordered dict of an object under
construction. -/
def mUpd : JMembers → String → Json → JMembers
  | .nil, k, v => .cons k v .nil
  | .cons k' v' tl, k, v =>
    if k' = k then .cons k v tl else .cons k' v' (mUpd tl k v)

/-- Option bind with the result laid out for rewriting in proofs. -/
def jbind {α β : Type} : Option α → (α → Option β) → Option β
  | none, _ => none
  | some a, k => k a

def parseTrue : List Char → Option (Json × List Char)
  | 'r' :: 'u' :: 'e' :: r => some (.bool true, r)
  | _ => none

def parseFalse : List Char → Option (Json × List Char)
  | 'a' :: 'l' :: 's' :: 'e' :: r => some (.bool false, r)
  | _ => none

def parseNull : List Char → Option (Json × List Char)
  | 'u' :: 'l' :: 'l' :: r => some (.null, r)
  | _ => none

mutual
/-- `scan_once` of `json/scanner.py` (C scanner semantics, minus floats and
the NaN/Infinity extensions): scan one value starting at a non-whitespace
position.  Every recursive call decrements the fuel; `jsonLoads` passes
enough for any input it can be asked to parse. -/
def parseValue : Nat → List Char → Option (Json × List Char)
  | 0, _ => none
  | _ + 1, [] => none
  | f + 1, c :: cs =>
    if c = '"' then
      jbind (parseStringChars (2 * cs.length + 2) cs) fun sr =>
        some (.str (String.mk sr.1), sr.2)
    else if c = '[' then parseArrayRest f (skipWs cs)
    else if c = lbrace then parseObjRest f (skipWs cs)
    else if c = 't' then parseTrue cs
    else if c = 'f' then parseFalse cs
    else if c = 'n' then parseNull cs
    else if c = '-' then
      jbind (parseNat cs) fun nr => some (.int (-(nr.1 : Int)), nr.2)
    else
      jbind (parseNat (c :: cs)) fun nr => some (.int ((nr.1 : Int)), nr.2)
/-- `JSONArray` after the opening bracket and whitespace. -/
def parseArrayRest : Nat → List Char → Option (Json × List Char)
  | 0, _ => none
  | _ + 1, [] => none
  | f + 1, c :: cs =>
    if c = ']' then some (.arr .nil, cs)
    else jbind (parseElems f (c :: cs)) fun vr => some (.arr vr.1, vr.2)
/-- `JSONObject` after the opening brace and whitespace. -/
def parseObjRest : Nat → List Char → Option (Json × List Char)
  | 0, _ => none
  | _ + 1, [] => none
  | f + 1, c :: cs =>
    if c = rbrace then some (.obj .nil, cs)
    else jbind (parseMembers f .nil (c :: cs)) fun pr => some (.obj pr.1, pr.2)
/-- Elements of a non-empty array, starting at the first element
(non-whitespace). -/
def parseElems : Nat → List Char → Option (JList × List Char)
  | 0, _ => none
  | f + 1, cs =>
    jbind (parseValue f cs) fun vr => parseElemsSep f vr.1 (skipWs vr.2)
/-- The separator (or closing bracket) after one array element. -/
def parseElemsSep : Nat → Json → List Char → Option (JList × List Char)
  | 0, _, _ => none
  | _ + 1, _, [] => none
  | f + 1, v, c :: r2 =>
    if c = ']' then some (.cons v .nil, r2)
    else if c = ',' then
      jbind (parseElems f (skipWs r2)) fun vr => some (.cons v vr.1, vr.2)
    else none
/-- Members of a non-empty object, starting at the opening quote of a key. -/
def parseMembers : Nat → JMembers → List Char → Option (JMembers × List Char)
  | 0, _, _ => none
  | f + 1, acc, cs =>
    match cs with
    | '"' :: cs2 =>
      jbind (parseStringChars (2 * cs2.length + 2) cs2) fun kr =>
        match skipWs kr.2 with
        | ':' :: r2 => parseMemberValue f acc (String.mk kr.1) (skipWs r2)
        | _ => none
    | _ => none
/-- The value of one object member. -/
def parseMemberValue : Nat → JMembers → String → List Char → Option (JMembers × List Char)
  | 0, _, _, _ => none
  | f + 1, acc, k, cs =>
    jbind (parseValue f cs) fun vr =>
      parseMemberSep f (mUpd acc k vr.1) (skipWs vr.2)
/-- The separator (or closing brace) after one object member. -/
def parseMemberSep : Nat → JMembers → List Char → Option (JMembers × List Char)
  | 0, _, _ => none
  | _ + 1, _, [] => none
  | f + 1, acc, c :: r4 =>
    if c = rbrace then some (acc, r4)
    else if c = ',' then parseMembers f acc (skipWs r4)
    else none
end

/-- `json.loads` on a decoded string: skip leading whitespace, scan one
value, require only whitespace after it. -/
def jsonLoads (s : String) : Option Json :=
  match parseValue (2 * (skipWs s.data).length + 2) (skipWs s.data) with
  | some (v, r) => if (skipWs r).isEmpty then some v else none
  | none => none

def fffdChar : Char := Char.ofNat 65533

def isCont (b : Nat) : Bool := 128 ≤ b && b ≤ 191

def dec2 (b b2 : Nat) : Char := Char.ofNat ((b - 192) * 64 + (b2 - 128))

def dec3 (b b2 b3 : Nat) : Char :=
  Char.ofNat ((b - 224) * 4096 + (b2 - 128) * 64 + (b3 - 128))

def dec4 (b b2 b3 b4 : Nat) : Char :=
  Char.ofNat ((b - 240) * 262144 + (b2 - 128) * 4096 + (b3 - 128) * 64 + (b4 - 128))

/-- Admissible second byte for a 3-byte lead (excludes overlong forms and
surrogates, as CPython's UTF-8 decoder does). -/
def cont3ok (b b2 : Nat) : Bool :=
  if b = 224 then 160 ≤ b2 && b2 ≤ 191
  else if b = 237 then 128 ≤ b2 && b2 ≤ 159
  else isCont b2

/-- Admissible second byte for a 4-byte lead (excludes overlong forms and
code points above U+10FFFF). -/
def cont4ok (b b2 : Nat) : Bool :=
  if b = 240 then 144 ≤ b2 && b2 ≤ 191
  else if b = 244 then 128 ≤ b2 && b2 ≤ 143
  else isCont b2

def ocons (c : Char) : Option (List Char) → Option (List Char)
  | some cs => some (c :: cs)
  | none => none

/-- `raw.decode("utf-8", "replace")`: invalid data is replaced by U+FFFD,
one replacement per maximal subpart of an ill-formed sequence (CPython's
error handler). -/
def decodeReplaceChars : List Nat → List Char
  | [] => []
  | b :: rest =>
    if b < 128 then Char.ofNat b :: decodeReplaceChars rest
    else if b < 194 then fffdChar :: decodeReplaceChars rest
    else if b < 224 then
      match rest with
      | [] => [fffdChar]
      | b2 :: rest2 =>
        if isCont b2 then dec2 b b2 :: decodeReplaceChars rest2
        else fffdChar :: decodeReplaceChars (b2 :: rest2)
    else if b < 240 then
      match rest with
      | [] => [fffdChar]
      | b2 :: rest2 =>
        if cont3ok b b2 then
          match rest2 with
          | [] => [fffdChar]
          | b3 :: rest3 =>
            if isCont b3 then dec3 b b2 b3 :: decodeReplaceChars rest3
            else fffdChar :: decodeReplaceChars (b3 :: rest3)
        else fffdChar :: decodeReplaceChars (b2 :: rest2)
    else if b < 245 then
      match rest with
      | [] => [fffdChar]
      | b2 :: rest2 =>
        if cont4ok b b2 then
          match rest2 with
          | [] => [fffdChar]
          | b3 :: rest3 =>
            if isCont b3 then
              match rest3 with
              | [] => [fffdChar]
              | b4 :: rest4 =>
                if isCont b4 then dec4 b b2 b3 b4 :: decodeReplaceChars rest4
                else fffdChar :: decodeReplaceChars (b4 :: rest4)
            else fffdChar :: decodeReplaceChars (b3 :: rest3)
        else fffdChar :: decodeReplaceChars (b2 :: rest2)
    else fffdChar :: decodeReplaceChars rest
termination_by bs => bs.length
decreasing_by all_goals simp <;> omega

/-- `raw.decode("utf-8")` (strict): None models UnicodeDecodeError. -/
def decodeStrictChars : List Nat → Option (List Char)
  | [] => some []
  | b :: rest =>
    if b < 128 then ocons (Char.ofNat b) (decodeStrictChars rest)
    else if b < 194 then none
    else if b < 224 then
      match rest with
      | [] => none
      | b2 :: rest2 =>
        if isCont b2 then ocons (dec2 b b2) (decodeStrictChars rest2) else none
    else if b < 240 then
      match rest with
      | b2 :: b3 :: rest3 =>
        if cont3ok b b2 && isCont b3 then ocons (dec3 b b2 b3) (decodeStrictChars rest3)
        else none
      | _ => none
    else if b < 245 then
      match rest with
      | b2 :: b3 :: b4 :: rest4 =>
        if cont4ok b b2 && isCont b3 && isCont b4 then
          ocons (dec4 b b2 b3 b4) (decodeStrictChars rest4)
        else none
      | _ => none
    else none

def decodeUtf8Replace (bs : List Nat) : String := String.mk (decodeReplaceChars bs)

def decodeUtf8Strict (bs : List Nat) : Option String :=
  (decodeStrictChars bs).map String.mk

/-- The parse attempted by `_try_pretty_json`: strict UTF-8 decode, then
`json.loads`; None models either exception. -/
def jsonLoadsBytes (bs : List Nat) : Option Json :=
  match decodeUtf8Strict bs with
  | none => none
  | some s => jsonLoads s

/-- `_try_pretty_json`: pretty-print the body if it decodes and parses as
JSON, otherwise fall back to a replacement-character decode of the raw
bytes.  Both exceptions (UnicodeDecodeError from `.decode("utf-8")` and
ValueError from `json.loads`) take the fallback branch. -/
def try_pretty_json (bs : List Nat) : String :=
  match decodeUtf8Strict bs with
  | none => decodeUtf8Replace bs
  | some s =>
    match jsonLoads s with
    | none => decodeUtf8Replace bs
    | some v => jsonDumps v

example (f : Nat) (r : List Char) :
    parseValue (f + 1) ('n' :: 'u' :: 'l' :: 'l' :: r) = some (.null, r) := rfl
example (f : Nat) (cs : List Char) :
    parseValue (f + 2) ('[' :: ']' :: cs) = some (.arr .nil, cs) := rfl
example : jsonLoads "123" = some (.int 123) := rfl
example : jsonLoads " -45 " = some (.int (-45)) := rfl
example : jsonLoads "[1, [true, null]]" =
    some (.arr (.cons (.int 1)
      (.cons (.arr (.cons (.bool true) (.cons .null .nil))) .nil))) := rfl
example : jsonLoads "1.5" = none := rfl
example : jsonLoads "00" = none := rfl
example : jsonLoadsBytes [123, 34, 97, 34, 58, 32, 49, 125] =
    some (.obj (.cons "a" (.int 1) .nil)) := rfl
example : jsonLoadsBytes [123, 34, 97, 34, 58, 49, 44, 34, 97, 34, 58, 50, 125] =
    some (.obj (.cons "a" (.int 2) .nil)) := rfl
example : decodeUtf8Strict [104, 105] = some "hi" := rfl
example : decodeUtf8Strict [255] = none := rfl
example : try_pretty_json [104, 105] = decodeUtf8Replace [104, 105] := rfl
example : try_pretty_json [255] = decodeUtf8Replace [255] := rfl

/-- C5: the body renderer is total by construction (it is a function into
String), and whenever the bytes do not decode-and-parse as JSON — either
exception of the try block — it returns the replacement-character decoding
of the raw bytes. -/
theorem try_pretty_json_total_fallback (bs : List Nat)
    (h : jsonLoadsBytes bs = none) :
    try_pretty_json bs = decodeUtf8Replace bs := by
  cases hd : decodeUtf8Strict bs with
  | none => simp [try_pretty_json, hd]
  | some s =>
    have hl : jsonLoads s = none := by
      unfold jsonLoadsBytes at h
      rw [hd] at h
      exact h
    simp [try_pretty_json, hd, hl]

theorem try_pretty_json_total_fallback_witness :
    jsonLoadsBytes [104, 105] = none ∧
      try_pretty_json [104, 105] = decodeUtf8Replace [104, 105] :=
  ⟨rfl, try_pretty_json_total_fallback [104, 105] rfl⟩

theorem string_mk_data (s : String) : String.mk s.data = s := rfl

theorem digitChar48_toNat : ∀ n, n < 10 → (digitChar48 n).toNat = 48 + n := by
  decide

theorem isDig_digitChar48 : ∀ n, n < 10 → isDig (digitChar48 n) = true := by
  decide

theorem hexVal_hexDigitChar : ∀ n, n < 16 → hexVal (hexDigitChar n) = some n := by
  decide

theorem not_ws_of_digit {c : Char} (h1 : 48 ≤ c.toNat) (_h2 : c.toNat ≤ 57) :
    isWsChar c = false := by
  have e1 : c ≠ ' ' := fun he => by rw [he] at h1; exact absurd h1 (by decide)
  have e2 : c ≠ '\t' := fun he => by rw [he] at h1; exact absurd h1 (by decide)
  have e3 : c ≠ '\n' := fun he => by rw [he] at h1; exact absurd h1 (by decide)
  have e4 : c ≠ '\r' := fun he => by rw [he] at h1; exact absurd h1 (by decide)
  simp [isWsChar, e1, e2, e3, e4]

theorem digit_ne_rbracket {c : Char} (h2 : c.toNat ≤ 57) : c ≠ ']' :=
  fun he => by rw [he] at h2; exact absurd h2 (by decide)

theorem natDigs_lt10 {n : Nat} (h : n < 10) : natDigs n = [digitChar48 n] := by
  unfold natDigs
  rw [dif_pos h]

theorem natDigs_ge10 {n : Nat} (h : 10 ≤ n) :
    natDigs n = natDigs (n / 10) ++ [digitChar48 (n % 10)] := by
  conv_lhs => unfold natDigs
  rw [dif_neg (by omega)]

theorem natDigs_digits : ∀ n, ∀ c ∈ natDigs n, 48 ≤ c.toNat ∧ c.toNat ≤ 57 := by
  intro n
  induction n using Nat.strong_induction_on with
  | _ n ih =>
    intro c hc
    by_cases h : n < 10
    · rw [natDigs_lt10 h] at hc
      simp only [List.mem_singleton] at hc
      rw [hc, digitChar48_toNat n h]
      omega
    · rw [natDigs_ge10 (by omega)] at hc
      rcases List.mem_append.mp hc with hc | hc
      · exact ih (n / 10) (Nat.div_lt_self (by omega) (by omega)) c hc
      · simp only [List.mem_singleton] at hc
        rw [hc, digitChar48_toNat (n % 10) (Nat.mod_lt n (by omega))]
        omega

theorem natDigs_head_pos :
    ∀ n, 0 < n → ∃ c cs, natDigs n = c :: cs ∧ 49 ≤ c.toNat ∧ c.toNat ≤ 57 := by
  intro n
  induction n using Nat.strong_induction_on with
  | _ n ih =>
    intro hn
    by_cases h : n < 10
    · refine ⟨digitChar48 n, [], natDigs_lt10 h, ?_, ?_⟩ <;>
        rw [digitChar48_toNat n h] <;> omega
    · obtain ⟨c, cs, hrec, hc1, hc2⟩ :=
        ih (n / 10) (Nat.div_lt_self (by omega) (by omega)) (by omega)
      exact ⟨c, cs ++ [digitChar48 (n % 10)],
        by rw [natDigs_ge10 (by omega), hrec, List.cons_append], hc1, hc2⟩

theorem digitsToNat_append :
    ∀ (xs ys : List Char) (acc : Nat),
      digitsToNat acc (xs ++ ys) = digitsToNat (digitsToNat acc xs) ys := by
  intro xs
  induction xs with
  | nil => intro ys acc; rfl
  | cons c tl ih =>
    intro ys acc
    show digitsToNat (acc * 10 + (c.toNat - 48)) (tl ++ ys) =
      digitsToNat (digitsToNat (acc * 10 + (c.toNat - 48)) tl) ys
    exact ih ys _

theorem digitsToNat_nil (acc : Nat) : digitsToNat acc [] = acc := rfl

theorem digitsToNat_cons (acc : Nat) (c : Char) (rest : List Char) :
    digitsToNat acc (c :: rest) = digitsToNat (acc * 10 + (c.toNat - 48)) rest := rfl

theorem digitsToNat_natDigs :
    ∀ n acc, digitsToNat acc (natDigs n) = acc * 10 ^ (natDigs n).length + n := by
  intro n
  induction n using Nat.strong_induction_on with
  | _ n ih =>
    intro acc
    by_cases h : n < 10
    · rw [natDigs_lt10 h, digitsToNat_cons, digitsToNat_nil, digitChar48_toNat n h,
        List.length_cons, List.length_nil, Nat.zero_add, pow_one]
      omega
    · rw [natDigs_ge10 (by omega), digitsToNat_append,
        ih (n / 10) (Nat.div_lt_self (by omega) (by omega)) acc,
        digitsToNat_cons, digitsToNat_nil,
        digitChar48_toNat (n % 10) (Nat.mod_lt n (by omega)),
        List.length_append, List.length_cons, List.length_nil, Nat.zero_add,
        pow_succ, ← mul_assoc]
      omega

theorem takeWhile_all_append {p : Char → Bool} :
    ∀ (ds rest : List Char), (∀ c ∈ ds, p c = true) →
      (∀ c, rest.head? = some c → p c = false) →
      (ds ++ rest).takeWhile p = ds ∧ (ds ++ rest).dropWhile p = rest := by
  intro ds
  induction ds with
  | nil =>
    intro rest _ hr
    cases rest with
    | nil => exact ⟨rfl, rfl⟩
    | cons c t =>
      have := hr c rfl
      simp [List.takeWhile_cons, List.dropWhile_cons, this]
  | cons d tl ih =>
    intro rest hds hr
    have hd : p d = true := hds d (List.mem_cons_self _ _)
    have := ih rest (fun c hc => hds c (List.mem_cons_of_mem _ hc)) hr
    simp [List.takeWhile_cons, List.dropWhile_cons, hd, this.1, this.2]

/-- The characters after a position: none of them is a digit at the head. -/
def headNotDig (cs : List Char) : Prop :=
  ∀ c, cs.head? = some c → isDig c = false

theorem parseNat_natDigs (n : Nat) (rest : List Char) (hr : headNotDig rest) :
    parseNat (natDigs n ++ rest) = some (n, rest) := by
  by_cases h : n = 0
  · subst h
    rw [natDigs_lt10 (by omega)]
    have : digitChar48 0 = '0' := by decide
    rw [this]
    rfl
  · obtain ⟨c, cs, hrep, hc1, hc2⟩ := natDigs_head_pos n (by omega)
    have hdigs := natDigs_digits n
    rw [hrep] at hdigs
    have hcne0 : c ≠ '0' := fun he => by rw [he] at hc1; exact absurd hc1 (by decide)
    have hcd : isDig c = true := by simp [isDig]; omega
    have htk := takeWhile_all_append (p := isDig) cs rest
      (fun x hx => by
        have := hdigs x (List.mem_cons_of_mem _ hx)
        simp [isDig]; omega)
      (fun x hx => hr x hx)
    rw [hrep, List.cons_append]
    simp only [parseNat, if_neg hcne0, hcd, if_true]
    rw [htk.1, htk.2]
    have hval : digitsToNat (c.toNat - 48) cs = n := by
      have h0 := digitsToNat_natDigs n 0
      rw [hrep, digitsToNat_cons] at h0
      simpa using h0
    rw [hval]

/-- Lists made only of JSON whitespace. -/
def wsOnly (w : List Char) : Prop := ∀ c ∈ w, isWsChar c = true

theorem skipWs_append {w : List Char} (hw : wsOnly w) (cs : List Char) :
    skipWs (w ++ cs) = skipWs cs := by
  induction w with
  | nil => rfl
  | cons c t ih =>
    have hc : isWsChar c = true := hw c (List.mem_cons_self _ _)
    simp only [skipWs, List.cons_append, List.dropWhile_cons, hc, if_true]
    exact ih fun x hx => hw x (List.mem_cons_of_mem _ hx)

theorem skipWs_not_ws {c : Char} (h : isWsChar c = false) (cs : List Char) :
    skipWs (c :: cs) = c :: cs := by
  simp [skipWs, List.dropWhile_cons, h]

theorem nlInd_wsOnly (lvl : Nat) : wsOnly (nlInd lvl) := by
  intro c hc
  rcases List.mem_cons.mp hc with h | h
  · rw [h]; rfl
  · rw [List.eq_of_mem_replicate h]; rfl

theorem ws_not_dig {c : Char} (h : isWsChar c = true) : isDig c = false := by
  simp only [isWsChar, Bool.or_eq_true, decide_eq_true_eq] at h
  rcases h with ((h | h) | h) | h <;> subst h <;> decide

theorem parseStringChars_raw {c : Char} (h1 : c ≠ '"') (h2 : c ≠ '\\')
    (h3 : ¬c.toNat < 32) (f : Nat) (r : List Char) :
    parseStringChars (f + 1) (c :: r) = pcons c (parseStringChars f r) := by
  show (if c = '"' then some ([], r)
      else if c = '\\' then parseEscapeSeq f r
      else if c.toNat < 32 then none
      else pcons c (parseStringChars f r)) = pcons c (parseStringChars f r)
  rw [if_neg h1, if_neg h2, if_neg h3]

theorem escapeChar_raw_length {c : Char} (h1 : c ≠ '"') (h2 : c ≠ '\\')
    (h3 : c ≠ '\n') (h4 : c ≠ '\r') (h5 : c ≠ '\t') (h6 : c ≠ bsChar)
    (h7 : c ≠ ffChar) (h8 : ¬c.toNat < 32) : (escapeChar c).length = 1 := by
  unfold escapeChar
  rw [if_neg h1, if_neg h2, if_neg h3, if_neg h4, if_neg h5, if_neg h6,
    if_neg h7, if_neg h8]
  rfl

/-- Scanning the escaped form of a string hits the closing quote exactly at
its end and recovers the original characters, given fuel beyond the length
of the escaped form. -/
theorem parseStringChars_escChars :
    ∀ (cs : List Char) (f : Nat) (rest : List Char),
      (escChars cs).length < f →
      parseStringChars f (escChars cs ++ '"' :: rest) = some (cs, rest) := by
  intro cs
  induction cs with
  | nil =>
    intro f rest hf
    obtain ⟨g, rfl⟩ : ∃ g, f = g + 1 := ⟨f - 1, by omega⟩
    rfl
  | cons c tl ih =>
    intro f rest hf
    simp only [escChars, List.length_append] at hf
    show parseStringChars f ((escapeChar c ++ escChars tl) ++ '"' :: rest) =
      some (c :: tl, rest)
    rw [List.append_assoc]
    unfold escapeChar
    split_ifs with h1 h2 h3 h4 h5 h6 h7 h8
    · subst h1
      have hl : (escapeChar '"').length = 2 := by decide
      rw [hl] at hf
      obtain ⟨g, rfl⟩ : ∃ g, f = g + 2 := ⟨f - 2, by omega⟩
      change pcons _ (parseStringChars g (escChars tl ++ '"' :: rest)) = _
      rw [ih g rest (by omega)]
      rfl
    · subst h2
      have hl : (escapeChar '\\').length = 2 := by decide
      rw [hl] at hf
      obtain ⟨g, rfl⟩ : ∃ g, f = g + 2 := ⟨f - 2, by omega⟩
      change pcons _ (parseStringChars g (escChars tl ++ '"' :: rest)) = _
      rw [ih g rest (by omega)]
      rfl
    · subst h3
      have hl : (escapeChar '\n').length = 2 := by decide
      rw [hl] at hf
      obtain ⟨g, rfl⟩ : ∃ g, f = g + 2 := ⟨f - 2, by omega⟩
      change pcons _ (parseStringChars g (escChars tl ++ '"' :: rest)) = _
      rw [ih g rest (by omega)]
      rfl
    · subst h4
      have hl : (escapeChar '\r').length = 2 := by decide
      rw [hl] at hf
      obtain ⟨g, rfl⟩ : ∃ g, f = g + 2 := ⟨f - 2, by omega⟩
      change pcons _ (parseStringChars g (escChars tl ++ '"' :: rest)) = _
      rw [ih g rest (by omega)]
      rfl
    · subst h5
      have hl : (escapeChar '\t').length = 2 := by decide
      rw [hl] at hf
      obtain ⟨g, rfl⟩ : ∃ g, f = g + 2 := ⟨f - 2, by omega⟩
      change pcons _ (parseStringChars g (escChars tl ++ '"' :: rest)) = _
      rw [ih g rest (by omega)]
      rfl
    · subst h6
      have hl : (escapeChar bsChar).length = 2 := by decide
      rw [hl] at hf
      obtain ⟨g, rfl⟩ : ∃ g, f = g + 2 := ⟨f - 2, by omega⟩
      change pcons _ (parseStringChars g (escChars tl ++ '"' :: rest)) = _
      rw [ih g rest (by omega)]
      rfl
    · subst h7
      have hl : (escapeChar ffChar).length = 2 := by decide
      rw [hl] at hf
      obtain ⟨g, rfl⟩ : ∃ g, f = g + 2 := ⟨f - 2, by omega⟩
      change pcons _ (parseStringChars g (escChars tl ++ '"' :: rest)) = _
      rw [ih g rest (by omega)]
      rfl
    · have hlen : (escapeChar c).length = 6 := by
        unfold escapeChar
        rw [if_neg h1, if_neg h2, if_neg h3, if_neg h4, if_neg h5, if_neg h6,
          if_neg h7, if_pos h8]
        rfl
      rw [hlen] at hf
      obtain ⟨g, rfl⟩ : ∃ g, f = g + 3 := ⟨f - 3, by omega⟩
      have hmem : c ∈ (List.range 32).map Char.ofNat :=
        List.mem_map.mpr ⟨c.toNat, List.mem_range.mpr h8, Char.ofNat_toNat c⟩
      fin_cases hmem <;>
        first
          | exact absurd (by decide) h3
          | exact absurd (by decide) h4
          | exact absurd (by decide) h5
          | exact absurd (by decide) h6
          | exact absurd (by decide) h7
          | (change pcons _ (parseStringChars g (escChars tl ++ '"' :: rest)) = _
             rw [ih g rest (by omega)]
             rfl)
    · have hlen := escapeChar_raw_length h1 h2 h3 h4 h5 h6 h7 h8
      rw [hlen] at hf
      obtain ⟨g, rfl⟩ : ∃ g, f = g + 1 := ⟨f - 1, by omega⟩
      rw [List.singleton_append, parseStringChars_raw h1 h2 h8,
        ih g rest (by omega)]
      rfl

/-- k does not occur among the keys of the members list. -/
def keyFree (k : String) : JMembers → Bool
  | .nil => true
  | .cons k' _ tl => if k' = k then false else keyFree k tl

mutual
/-- Dict-normal values: every object inside has pairwise distinct keys.
Every value produced by the parser is dict-normal, and printing followed by
re-parsing is the identity exactly on dict-normal values. -/
def dnorm : Json → Bool
  | .null => true
  | .bool _ => true
  | .int _ => true
  | .str _ => true
  | .arr xs => dnormL xs
  | .obj ps => dnormM ps
def dnormL : JList → Bool
  | .nil => true
  | .cons x xs => dnorm x && dnormL xs
def dnormM : JMembers → Bool
  | .nil => true
  | .cons k v tl => keyFree k tl && (dnorm v && dnormM tl)
end

/-- Folding dict insertion over a list of members, as the object parser
does with the members it scans. -/
def mFold : JMembers → JMembers → JMembers
  | acc, .nil => acc
  | acc, .cons k v tl => mFold (mUpd acc k v) tl

def mAppend : JMembers → JMembers → JMembers
  | .nil, q => q
  | .cons k v tl, q => .cons k v (mAppend tl q)

def keysOf : JMembers → List String
  | .nil => []
  | .cons k _ tl => k :: keysOf tl

mutual
/-- Fuel needed by the scanner on the pretty-printed form of a value. -/
def jsize : Json → Nat
  | .null => 1
  | .bool _ => 1
  | .int _ => 1
  | .str _ => 1
  | .arr xs => 2 + jsizeL xs
  | .obj ps => 2 + jsizeM ps
def jsizeL : JList → Nat
  | .nil => 0
  | .cons x xs => 2 + jsize x + jsizeL xs
def jsizeM : JMembers → Nat
  | .nil => 0
  | .cons _ v ps => 3 + jsize v + jsizeM ps
end

theorem jsize_pos : ∀ v : Json, 1 ≤ jsize v := by
  intro v
  cases v <;> simp [jsize] <;> omega

theorem natDigs_length_pos (n : Nat) : 1 ≤ (natDigs n).length := by
  by_cases h : n < 10
  · rw [natDigs_lt10 h]; rfl
  · rw [natDigs_ge10 (by omega)]
    simp

theorem intChars_length_pos (n : Int) : 1 ≤ (intChars n).length := by
  unfold intChars
  split_ifs
  · simp
  · exact natDigs_length_pos _

mutual
theorem jsize_le_print (lvl : Nat) (v : Json) :
    jsize v ≤ 2 * (printVal lvl v).length := by
  cases v with
  | null => simp [jsize, printVal]
  | bool b => cases b <;> simp [jsize, printVal]
  | int n =>
    have := intChars_length_pos n
    simp only [jsize, printVal]
    omega
  | str s =>
    simp only [jsize, printVal, List.length_cons, List.length_append]
    omega
  | arr xs =>
    cases xs with
    | nil => simp [jsize, jsizeL, printVal]
    | cons x t =>
      have h1 := jsize_le_print (lvl + 1) x
      have h2 := jsizeL_le_print (lvl + 1) t
      simp only [jsize, jsizeL, printVal, nlInd, indentChars, List.length_append,
        List.length_cons] at h1 h2 ⊢
      omega
  | obj ps =>
    cases ps with
    | nil => simp [jsize, jsizeM, printVal]
    | cons k v t =>
      have h1 := jsize_le_print (lvl + 1) v
      have h2 := jsizeM_le_print (lvl + 1) t
      simp only [jsize, jsizeM, printVal, printMember, nlInd, indentChars,
        List.length_append, List.length_cons] at h1 h2 ⊢
      omega
termination_by (sizeOf v, 0)
theorem jsizeL_le_print (lvl : Nat) (xs : JList) :
    jsizeL xs ≤ 2 * (printItems lvl xs).length := by
  cases xs with
  | nil => simp [jsizeL, printItems]
  | cons x t =>
    have h1 := jsize_le_print lvl x
    have h2 := jsizeL_le_print lvl t
    simp only [jsizeL, printItems, nlInd, indentChars, List.length_append,
      List.length_cons] at h1 h2 ⊢
    omega
termination_by (sizeOf xs, 1)
theorem jsizeM_le_print (lvl : Nat) (ps : JMembers) :
    jsizeM ps ≤ 2 * (printMembers lvl ps).length := by
  cases ps with
  | nil => simp [jsizeM, printMembers]
  | cons k v t =>
    have h1 := jsize_le_print lvl v
    have h2 := jsizeM_le_print lvl t
    simp only [jsizeM, printMembers, printMember, nlInd, indentChars,
      List.length_append, List.length_cons] at h1 h2 ⊢
    omega
termination_by (sizeOf ps, 1)
end

theorem natDigs_cons (n : Nat) :
    ∃ c cs, natDigs n = c :: cs ∧ 48 ≤ c.toNat ∧ c.toNat ≤ 57 := by
  by_cases h : n = 0
  · subst h
    exact ⟨'0', [], by rw [natDigs_lt10 (by omega)]; decide, by decide, by decide⟩
  · obtain ⟨c, cs, hr, h1, h2⟩ := natDigs_head_pos n (by omega)
    exact ⟨c, cs, hr, by omega, h2⟩

theorem printVal_head (lvl : Nat) (v : Json) :
    ∃ c t, printVal lvl v = c :: t ∧ isWsChar c = false ∧ c ≠ ']' := by
  cases v with
  | null => exact ⟨'n', ['u', 'l', 'l'], by simp [printVal], by decide, by decide⟩
  | bool b =>
    cases b with
    | false => exact ⟨'f', ['a', 'l', 's', 'e'], by simp [printVal], by decide, by decide⟩
    | true => exact ⟨'t', ['r', 'u', 'e'], by simp [printVal], by decide, by decide⟩
  | int n =>
    by_cases hn : n < 0
    · exact ⟨'-', natDigs n.natAbs, by simp [printVal, intChars, hn], by decide, by decide⟩
    · obtain ⟨c, cs, hr, h1, h2⟩ := natDigs_cons n.natAbs
      exact ⟨c, cs, by simp [printVal, intChars, hn, hr],
        not_ws_of_digit h1 h2, digit_ne_rbracket h2⟩
  | str s =>
    exact ⟨'"', escChars s.data ++ ['"'], by simp [printVal], by decide, by decide⟩
  | arr xs =>
    cases xs with
    | nil => exact ⟨'[', [']'], by simp [printVal], by decide, by decide⟩
    | cons x t =>
      exact ⟨'[', nlInd (lvl + 1) ++ (printVal (lvl + 1) x ++
        (printItems (lvl + 1) t ++ (nlInd lvl ++ [']']))),
        by simp [printVal], by decide, by decide⟩
  | obj ps =>
    cases ps with
    | nil => exact ⟨lbrace, [rbrace], by simp [printVal], by decide, by decide⟩
    | cons k v t =>
      exact ⟨lbrace, nlInd (lvl + 1) ++ (printMember (lvl + 1) k v ++
        (printMembers (lvl + 1) t ++ (nlInd lvl ++ [rbrace]))),
        by simp [printVal], by decide, by decide⟩

theorem headNotDig_cons {c : Char} (h : isDig c = false) (t : List Char) :
    headNotDig (c :: t) := by
  intro x hx
  injection hx with hx
  rw [← hx]
  exact h

theorem headNotDig_ws_append {w : List Char} (hw : wsOnly w) {c : Char}
    (hc : isDig c = false) (rest : List Char) : headNotDig (w ++ c :: rest) := by
  cases w with
  | nil => exact headNotDig_cons hc rest
  | cons a t =>
    intro x hx
    rw [List.cons_append] at hx
    injection hx with hx
    rw [← hx]
    exact ws_not_dig (hw a (List.mem_cons_self _ _))

theorem digit_not_special {c : Char} (h1 : 48 ≤ c.toNat) (h2 : c.toNat ≤ 57) :
    c ≠ '"' ∧ c ≠ '[' ∧ c ≠ lbrace ∧ c ≠ 't' ∧ c ≠ 'f' ∧ c ≠ 'n' ∧ c ≠ '-' := by
  refine ⟨?_, ?_, ?_, ?_, ?_, ?_, ?_⟩ <;>
    (intro he; rw [he] at h1 h2; revert h1 h2; decide)

theorem parseValue_default {c : Char} (f : Nat) (cs : List Char)
    (h1 : c ≠ '"') (h2 : c ≠ '[') (h3 : c ≠ lbrace) (h4 : c ≠ 't')
    (h5 : c ≠ 'f') (h6 : c ≠ 'n') (h7 : c ≠ '-') :
    parseValue (f + 1) (c :: cs) =
      jbind (parseNat (c :: cs)) fun nr => some (.int ((nr.1 : Int)), nr.2) := by
  show (if c = '"' then
      jbind (parseStringChars (2 * cs.length + 2) cs) fun sr =>
        some (.str (String.mk sr.1), sr.2)
    else if c = '[' then parseArrayRest f (skipWs cs)
    else if c = lbrace then parseObjRest f (skipWs cs)
    else if c = 't' then parseTrue cs
    else if c = 'f' then parseFalse cs
    else if c = 'n' then parseNull cs
    else if c = '-' then
      jbind (parseNat cs) fun nr => some (.int (-(nr.1 : Int)), nr.2)
    else
      jbind (parseNat (c :: cs)) fun nr => some (.int ((nr.1 : Int)), nr.2)) = _
  rw [if_neg h1, if_neg h2, if_neg h3, if_neg h4, if_neg h5, if_neg h6, if_neg h7]

theorem jbind_some {α β : Type} (a : α) (k : α → Option β) :
    jbind (some a) k = k a := rfl

theorem parseValue_quote (f : Nat) (cs : List Char) :
    parseValue (f + 1) ('"' :: cs) =
      jbind (parseStringChars (2 * cs.length + 2) cs) fun sr =>
        some (.str (String.mk sr.1), sr.2) := rfl

theorem parseValue_minus (f : Nat) (cs : List Char) :
    parseValue (f + 1) ('-' :: cs) =
      jbind (parseNat cs) fun nr => some (.int (-(nr.1 : Int)), nr.2) := rfl

theorem parseValue_lbracket (f : Nat) (cs : List Char) :
    parseValue (f + 1) ('[' :: cs) = parseArrayRest f (skipWs cs) := rfl

theorem parseValue_lbrace (f : Nat) (cs : List Char) :
    parseValue (f + 1) (lbrace :: cs) = parseObjRest f (skipWs cs) := rfl

theorem parseArrayRest_ne {c : Char} (h : c ≠ ']') (f : Nat) (cs : List Char) :
    parseArrayRest (f + 1) (c :: cs) =
      jbind (parseElems f (c :: cs)) fun vr => some (.arr vr.1, vr.2) := by
  show (if c = ']' then some (Json.arr JList.nil, cs)
    else jbind (parseElems f (c :: cs)) fun vr => some (.arr vr.1, vr.2)) = _
  rw [if_neg h]

theorem parseObjRest_quote (f : Nat) (cs : List Char) :
    parseObjRest (f + 1) ('"' :: cs) =
      jbind (parseMembers f .nil ('"' :: cs)) fun pr => some (.obj pr.1, pr.2) := rfl

theorem parseElems_succ (f : Nat) (cs : List Char) :
    parseElems (f + 1) cs =
      jbind (parseValue f cs) fun vr => parseElemsSep f vr.1 (skipWs vr.2) := rfl

theorem parseElemsSep_rbracket (f : Nat) (v : Json) (r2 : List Char) :
    parseElemsSep (f + 1) v (']' :: r2) = some (.cons v .nil, r2) := rfl

theorem parseElemsSep_comma (f : Nat) (v : Json) (r2 : List Char) :
    parseElemsSep (f + 1) v (',' :: r2) =
      jbind (parseElems f (skipWs r2)) fun vr => some (.cons v vr.1, vr.2) := rfl

theorem parseMembers_quote (f : Nat) (acc : JMembers) (cs2 : List Char) :
    parseMembers (f + 1) acc ('"' :: cs2) =
      jbind (parseStringChars (2 * cs2.length + 2) cs2) fun kr =>
        match skipWs kr.2 with
        | ':' :: r2 => parseMemberValue f acc (String.mk kr.1) (skipWs r2)
        | _ => none := rfl

theorem parseMemberValue_succ (f : Nat) (acc : JMembers) (k : String)
    (cs : List Char) :
    parseMemberValue (f + 1) acc k cs =
      jbind (parseValue f cs) fun vr =>
        parseMemberSep f (mUpd acc k vr.1) (skipWs vr.2) := rfl

theorem parseMemberSep_rbrace (f : Nat) (acc : JMembers) (r4 : List Char) :
    parseMemberSep (f + 1) acc (rbrace :: r4) = some (acc, r4) := rfl

theorem parseMemberSep_comma (f : Nat) (acc : JMembers) (r4 : List Char) :
    parseMemberSep (f + 1) acc (',' :: r4) = parseMembers f acc (skipWs r4) := rfl

theorem keyFree_iff (k : String) : ∀ ps, keyFree k ps = true ↔ k ∉ keysOf ps
  | .nil => by simp [keyFree, keysOf]
  | .cons k' v tl => by
    by_cases h : k' = k
    · simp [keyFree, keysOf, h]
    · simp only [keyFree, if_neg h, keysOf, List.mem_cons]
      rw [keyFree_iff k tl]
      constructor
      · intro hk hc
        rcases hc with hc | hc
        · exact h hc.symm
        · exact hk hc
      · intro hk
        exact fun hc => hk (Or.inr hc)

theorem mUpd_of_keyFree {k : String} {v : Json} :
    ∀ (acc : JMembers), keyFree k acc = true →
      mUpd acc k v = mAppend acc (JMembers.cons k v JMembers.nil)
  | .nil, _ => rfl
  | .cons k' v' tl, h => by
    simp only [keyFree] at h
    by_cases hk : k' = k
    · rw [if_pos hk] at h
      exact absurd h (by simp)
    · rw [if_neg hk] at h
      show mUpd (JMembers.cons k' v' tl) k v = _
      simp only [mUpd, if_neg hk, mAppend]
      rw [mUpd_of_keyFree tl h]

theorem mAppend_nil_right : ∀ acc : JMembers, mAppend acc JMembers.nil = acc
  | .nil => rfl
  | .cons k v tl => by simp only [mAppend, mAppend_nil_right tl]

theorem mAppend_assoc : ∀ a b c : JMembers,
    mAppend (mAppend a b) c = mAppend a (mAppend b c)
  | .nil, _, _ => rfl
  | .cons k v tl, b, c => by simp only [mAppend, mAppend_assoc tl b c]

theorem keyFree_mAppend {x : String} : ∀ a b : JMembers,
    keyFree x (mAppend a b) = (keyFree x a && keyFree x b)
  | .nil, b => by simp [mAppend, keyFree]
  | .cons k v tl, b => by
    by_cases h : k = x
    · simp [mAppend, keyFree, h]
    · simp [mAppend, keyFree, h, keyFree_mAppend tl b]

theorem mFold_fresh : ∀ (ps acc : JMembers), dnormM ps = true →
    (∀ x ∈ keysOf ps, keyFree x acc = true) → mFold acc ps = mAppend acc ps
  | .nil, acc, _, _ => by
    rw [mAppend_nil_right]
    rfl
  | .cons k v tl, acc, hd, hfr => by
    simp only [dnormM, Bool.and_eq_true] at hd
    obtain ⟨hkf, _, hdt⟩ := hd
    have hacc : keyFree k acc = true := hfr k (by simp [keysOf])
    show mFold (mUpd acc k v) tl = mAppend acc (JMembers.cons k v tl)
    rw [mUpd_of_keyFree acc hacc]
    rw [mFold_fresh tl (mAppend acc (JMembers.cons k v JMembers.nil)) hdt ?_]
    · rw [mAppend_assoc]
      rfl
    · intro x hx
      rw [keyFree_mAppend]
      have hx1 : keyFree x acc = true := hfr x (by simp [keysOf]; exact Or.inr hx)
      have hx2 : k ≠ x := by
        intro he
        exact ((keyFree_iff k tl).mp hkf) (he ▸ hx)
      simp [hx1, keyFree, hx2]

theorem mFold_nil (ps : JMembers) (h : dnormM ps = true) :
    mFold JMembers.nil ps = ps := by
  rw [mFold_fresh ps JMembers.nil h (fun x _ => rfl)]
  rfl

mutual
/-- Scanning the pretty-printed form of a dict-normal value consumes exactly
that form and returns the value. -/
theorem parse_print_val (v : Json) (lvl : Nat) (rest : List Char) (f : Nat)
    (hf : jsize v ≤ f) (hd : dnorm v = true) (hr : headNotDig rest) :
    parseValue f (printVal lvl v ++ rest) = some (v, rest) := by
  cases v with
  | null =>
    obtain ⟨g, rfl⟩ : ∃ g, f = g + 1 := ⟨f - 1, by simp [jsize] at hf; omega⟩
    simp only [printVal]
    rfl
  | bool b =>
    obtain ⟨g, rfl⟩ : ∃ g, f = g + 1 := ⟨f - 1, by simp [jsize] at hf; omega⟩
    cases b with
    | false => simp only [printVal]; rfl
    | true => simp only [printVal]; rfl
  | int n =>
    obtain ⟨g, rfl⟩ : ∃ g, f = g + 1 := ⟨f - 1, by simp [jsize] at hf; omega⟩
    simp only [printVal]
    by_cases hn : n < 0
    · rw [show intChars n = '-' :: natDigs n.natAbs from by simp [intChars, hn],
        List.cons_append, parseValue_minus, parseNat_natDigs n.natAbs rest hr]
      have he : -((n.natAbs : Int)) = n := by omega
      simp only [jbind_some, he]
    · rw [show intChars n = natDigs n.natAbs from by simp [intChars, hn]]
      obtain ⟨c, cs, hrep, h48, h57⟩ := natDigs_cons n.natAbs
      obtain ⟨e1, e2, e3, e4, e5, e6, e7⟩ := digit_not_special h48 h57
      rw [hrep, List.cons_append, parseValue_default g (cs ++ rest) e1 e2 e3 e4 e5 e6 e7,
        ← List.cons_append, ← hrep, parseNat_natDigs n.natAbs rest hr]
      have he : ((n.natAbs : Int)) = n := by omega
      simp only [jbind_some, he]
  | str s =>
    obtain ⟨g, rfl⟩ : ∃ g, f = g + 1 := ⟨f - 1, by simp [jsize] at hf; omega⟩
    simp only [printVal]
    rw [List.cons_append, List.append_assoc, List.singleton_append, parseValue_quote,
      parseStringChars_escChars s.data _ rest
        (by simp only [List.length_append, List.length_cons]; omega)]
    simp only [jbind_some, string_mk_data]
  | arr xs =>
    cases xs with
    | nil =>
      obtain ⟨g, rfl⟩ : ∃ g, f = g + 2 := ⟨f - 2, by simp [jsize, jsizeL] at hf; omega⟩
      simp only [printVal]
      rfl
    | cons x t =>
      have hd2 : dnorm x = true ∧ dnormL t = true := by
        simpa [dnorm, dnormL] using hd
      obtain ⟨g, rfl⟩ : ∃ g, f = g + 2 := ⟨f - 2, by simp [jsize, jsizeL] at hf; omega⟩
      simp only [printVal, List.cons_append, List.append_assoc, List.singleton_append,
        List.nil_append]
      rw [parseValue_lbracket, skipWs_append (nlInd_wsOnly _)]
      obtain ⟨c, tt, hcons, hws, hbr⟩ := printVal_head (lvl + 1) x
      rw [hcons, List.cons_append, skipWs_not_ws hws, parseArrayRest_ne hbr,
        ← List.cons_append, ← hcons]
      rw [parse_print_elems x t (lvl + 1) (nlInd lvl) rest g
        (by simp only [jsize, jsizeL] at hf ⊢; omega) hd2.1 hd2.2 (nlInd_wsOnly _)]
      simp only [jbind_some]
  | obj ps =>
    cases ps with
    | nil =>
      obtain ⟨g, rfl⟩ : ∃ g, f = g + 2 := ⟨f - 2, by simp [jsize, jsizeM] at hf; omega⟩
      simp only [printVal]
      rfl
    | cons k v t =>
      have hdm : dnormM (JMembers.cons k v t) = true := by simpa [dnorm] using hd
      have hd2 : keyFree k t = true ∧ (dnorm v = true ∧ dnormM t = true) := by
        simpa [dnormM] using hdm
      obtain ⟨g, rfl⟩ : ∃ g, f = g + 2 := ⟨f - 2, by simp [jsize, jsizeM] at hf; omega⟩
      simp only [printVal, printMember, List.cons_append, List.append_assoc,
        List.singleton_append, List.nil_append]
      rw [parseValue_lbrace, skipWs_append (nlInd_wsOnly _),
        skipWs_not_ws (show isWsChar '"' = false by decide), parseObjRest_quote]
      rw [parse_print_members k v t JMembers.nil (lvl + 1) (nlInd lvl) rest g
        (by simp only [jsize, jsizeM] at hf ⊢; omega) hd2.2.1 hd2.2.2 (nlInd_wsOnly _)]
      have hm : mFold (mUpd JMembers.nil k v) t = JMembers.cons k v t :=
        mFold_nil _ hdm
      simp only [jbind_some, hm]
termination_by 2 * sizeOf v
decreasing_by all_goals
  (subst_vars
   simp_wf
   try simp only [Json.arr.sizeOf_spec, Json.obj.sizeOf_spec, JList.cons.sizeOf_spec,
     JMembers.cons.sizeOf_spec]
   omega)
/-- Scanning the printed elements of a non-empty array up to the closing
bracket. -/
theorem parse_print_elems (x : Json) (xs : JList) (lvl : Nat) (w rest : List Char)
    (f : Nat) (hf : jsizeL (JList.cons x xs) ≤ f) (hx : dnorm x = true)
    (hxs : dnormL xs = true) (hw : wsOnly w) :
    parseElems f (printVal lvl x ++ (printItems lvl xs ++ (w ++ ']' :: rest))) =
      some (JList.cons x xs, rest) := by
  cases xs with
  | nil =>
    obtain ⟨g, rfl⟩ : ∃ g, f = g + 2 :=
      ⟨f - 2, by simp [jsizeL] at hf; have := jsize_pos x; omega⟩
    rw [parseElems_succ]
    rw [parse_print_val x lvl _ (g + 1) (by simp [jsizeL] at hf; omega) hx
      (by simp only [printItems, List.nil_append]
          exact headNotDig_ws_append hw (by decide) rest)]
    simp only [jbind_some]
    simp only [printItems, List.nil_append]
    rw [skipWs_append hw, skipWs_not_ws (show isWsChar ']' = false by decide),
      parseElemsSep_rbracket]
  | cons y ys =>
    obtain ⟨g, rfl⟩ : ∃ g, f = g + 2 :=
      ⟨f - 2, by simp [jsizeL] at hf; have := jsize_pos x; omega⟩
    have hys : dnorm y = true ∧ dnormL ys = true := by simpa [dnormL] using hxs
    rw [parseElems_succ]
    rw [parse_print_val x lvl _ (g + 1) (by simp [jsizeL] at hf; omega) hx
      (by simp only [printItems, List.cons_append]
          exact headNotDig_cons (by decide) _)]
    simp only [jbind_some]
    simp only [printItems, List.cons_append, List.append_assoc]
    rw [skipWs_not_ws (show isWsChar ',' = false by decide), parseElemsSep_comma,
      skipWs_append (nlInd_wsOnly _)]
    obtain ⟨c, tt, hcons, hws, _⟩ := printVal_head lvl y
    rw [hcons, List.cons_append, skipWs_not_ws hws, ← List.cons_append, ← hcons]
    rw [parse_print_elems y ys lvl w rest g
      (by simp only [jsizeL] at hf ⊢; have := jsize_pos x; omega) hys.1 hys.2 hw]
    simp only [jbind_some]
termination_by 2 * (sizeOf x + sizeOf xs) + 1
decreasing_by all_goals
  (subst_vars
   simp_wf
   try simp only [Json.arr.sizeOf_spec, Json.obj.sizeOf_spec, JList.cons.sizeOf_spec,
     JMembers.cons.sizeOf_spec]
   omega)
/-- Scanning the printed members of a non-empty object up to the closing
brace accumulates them into the parser's dict. -/
theorem parse_print_members (k : String) (v : Json) (ps : JMembers) (acc : JMembers)
    (lvl : Nat) (w rest : List Char) (f : Nat)
    (hf : jsizeM (JMembers.cons k v ps) ≤ f) (hv : dnorm v = true)
    (hps : dnormM ps = true) (hw : wsOnly w) :
    parseMembers f acc ('"' :: (escChars k.data ++ ('"' :: ':' :: ' ' ::
        (printVal lvl v ++ (printMembers lvl ps ++ (w ++ rbrace :: rest)))))) =
      some (mFold (mUpd acc k v) ps, rest) := by
  obtain ⟨g, rfl⟩ : ∃ g, f = g + 3 :=
    ⟨f - 3, by simp [jsizeM] at hf; have := jsize_pos v; omega⟩
  rw [parseMembers_quote]
  rw [parseStringChars_escChars k.data _ _
    (by simp only [List.length_append, List.length_cons]; omega)]
  simp only [jbind_some]
  rw [skipWs_not_ws (show isWsChar ':' = false by decide)]
  change parseMemberValue (g + 2) acc (String.mk k.data) (skipWs (' ' ::
    (printVal lvl v ++ (printMembers lvl ps ++ (w ++ rbrace :: rest))))) = _
  rw [string_mk_data,
    show skipWs (' ' :: (printVal lvl v ++ (printMembers lvl ps ++
        (w ++ rbrace :: rest)))) =
      skipWs (printVal lvl v ++ (printMembers lvl ps ++ (w ++ rbrace :: rest)))
      from rfl]
  obtain ⟨c, tt, hcons, hws, _⟩ := printVal_head lvl v
  rw [hcons, List.cons_append, skipWs_not_ws hws, ← List.cons_append, ← hcons]
  rw [parseMemberValue_succ]
  rw [parse_print_val v lvl _ (g + 1) (by simp [jsizeM] at hf; omega) hv
    (by cases ps with
      | nil =>
        simp only [printMembers, List.nil_append]
        exact headNotDig_ws_append hw (by decide) rest
      | cons k2 v2 t2 =>
        simp only [printMembers, List.cons_append]
        exact headNotDig_cons (by decide) _)]
  simp only [jbind_some]
  cases ps with
  | nil =>
    simp only [printMembers, List.nil_append]
    rw [skipWs_append hw, skipWs_not_ws (show isWsChar rbrace = false by decide),
      parseMemberSep_rbrace]
    rfl
  | cons k2 v2 t2 =>
    have hps2 : keyFree k2 t2 = true ∧ (dnorm v2 = true ∧ dnormM t2 = true) := by
      simpa [dnormM] using hps
    simp only [printMembers, printMember, List.cons_append, List.append_assoc]
    rw [skipWs_not_ws (show isWsChar ',' = false by decide), parseMemberSep_comma,
      skipWs_append (nlInd_wsOnly _),
      skipWs_not_ws (show isWsChar '"' = false by decide)]
    rw [parse_print_members k2 v2 t2 (mUpd acc k v) lvl w rest g
      (by simp only [jsizeM] at hf ⊢; have := jsize_pos v; omega)
      hps2.2.1 hps2.2.2 hw]
    rfl
termination_by 2 * (sizeOf v + sizeOf ps) + 1
decreasing_by all_goals
  (subst_vars
   simp_wf
   try simp only [Json.arr.sizeOf_spec, Json.obj.sizeOf_spec, JList.cons.sizeOf_spec,
     JMembers.cons.sizeOf_spec]
   omega)
end

theorem keyFree_mUpd (q k : String) (v : Json) (hne : q ≠ k) :
    ∀ tl : JMembers, keyFree q tl = true → keyFree q (mUpd tl k v) = true
  | .nil, _ => by simp [mUpd, keyFree, Ne.symm hne]
  | .cons k2 v2 t2, h => by
    have h2 : (if k2 = q then false else keyFree q t2) = true := h
    by_cases hq : k2 = q
    · simp [hq] at h2
    · rw [if_neg hq] at h2
      by_cases hk : k2 = k
      · simp only [mUpd, if_pos hk, keyFree, if_neg (Ne.symm hne)]
        exact h2
      · simp only [mUpd, if_neg hk, keyFree, if_neg hq]
        exact keyFree_mUpd q k v hne t2 h2

theorem mUpd_dnorm (k : String) (v : Json) (hv : dnorm v = true) :
    ∀ acc : JMembers, dnormM acc = true → dnormM (mUpd acc k v) = true
  | .nil, _ => by simp [mUpd, dnormM, keyFree, hv]
  | .cons k2 v2 tl, h => by
    have h3 : keyFree k2 tl = true ∧ dnorm v2 = true ∧ dnormM tl = true := by
      simpa [dnormM, Bool.and_eq_true] using h
    by_cases hk : k2 = k
    · subst hk
      simp [mUpd, dnormM, h3.1, hv, h3.2.2]
    · simp only [mUpd, if_neg hk, dnormM, Bool.and_eq_true]
      exact ⟨keyFree_mUpd k2 k v hk tl h3.1, h3.2.1, mUpd_dnorm k v hv tl h3.2.2⟩

theorem parseTrue_some (cs : List Char) (v : Json) (r : List Char)
    (h : parseTrue cs = some (v, r)) : v = .bool true := by
  unfold parseTrue at h
  split at h
  · simp only [Option.some.injEq, Prod.mk.injEq] at h
    exact h.1.symm
  · exact absurd h (by simp)

theorem parseFalse_some (cs : List Char) (v : Json) (r : List Char)
    (h : parseFalse cs = some (v, r)) : v = .bool false := by
  unfold parseFalse at h
  split at h
  · simp only [Option.some.injEq, Prod.mk.injEq] at h
    exact h.1.symm
  · exact absurd h (by simp)

theorem parseNull_some (cs : List Char) (v : Json) (r : List Char)
    (h : parseNull cs = some (v, r)) : v = .null := by
  unfold parseNull at h
  split at h
  · simp only [Option.some.injEq, Prod.mk.injEq] at h
    exact h.1.symm
  · exact absurd h (by simp)

mutual
/-- Every value the scanner produces is dict-normal: duplicate object keys
have been merged away by the dict insertions. -/
theorem parseValue_dnorm (f : Nat) (cs : List Char) (v : Json) (r : List Char)
    (h : parseValue f cs = some (v, r)) : dnorm v = true := by
  match f, cs with
  | 0, cs => simp [parseValue] at h
  | f + 1, [] => simp [parseValue] at h
  | f + 1, c :: cs =>
    simp only [parseValue] at h
    split_ifs at h
    · rcases hs : parseStringChars (2 * cs.length + 2) cs with _ | p
      · rw [hs] at h; exact absurd h (by simp [jbind])
      · rw [hs, jbind_some] at h
        simp only [Option.some.injEq, Prod.mk.injEq] at h
        rw [← h.1]
        simp [dnorm]
    · exact parseArrayRest_dnorm f (skipWs cs) v r h
    · exact parseObjRest_dnorm f (skipWs cs) v r h
    · rw [parseTrue_some cs v r h]; simp [dnorm]
    · rw [parseFalse_some cs v r h]; simp [dnorm]
    · rw [parseNull_some cs v r h]; simp [dnorm]
    · rcases hs : parseNat cs with _ | p
      · rw [hs] at h; exact absurd h (by simp [jbind])
      · rw [hs, jbind_some] at h
        simp only [Option.some.injEq, Prod.mk.injEq] at h
        rw [← h.1]
        simp [dnorm]
    · rcases hs : parseNat (c :: cs) with _ | p
      · rw [hs] at h; exact absurd h (by simp [jbind])
      · rw [hs, jbind_some] at h
        simp only [Option.some.injEq, Prod.mk.injEq] at h
        rw [← h.1]
        simp [dnorm]
/-- Arrays scanned after the opening bracket are dict-normal. -/
theorem parseArrayRest_dnorm (f : Nat) (cs : List Char) (v : Json) (r : List Char)
    (h : parseArrayRest f cs = some (v, r)) : dnorm v = true := by
  match f, cs with
  | 0, cs => simp [parseArrayRest] at h
  | f + 1, [] => simp [parseArrayRest] at h
  | f + 1, c :: cs =>
    simp only [parseArrayRest] at h
    split_ifs at h
    · simp only [Option.some.injEq, Prod.mk.injEq] at h
      rw [← h.1]
      simp [dnorm, dnormL]
    · rcases hs : parseElems f (c :: cs) with _ | p
      · rw [hs] at h; exact absurd h (by simp [jbind])
      · rw [hs, jbind_some] at h
        simp only [Option.some.injEq, Prod.mk.injEq] at h
        rw [← h.1]
        have := parseElems_dnorm f (c :: cs) p.1 p.2 (by rw [hs])
        simpa [dnorm] using this
/-- Objects scanned after the opening brace are dict-normal. -/
theorem parseObjRest_dnorm (f : Nat) (cs : List Char) (v : Json) (r : List Char)
    (h : parseObjRest f cs = some (v, r)) : dnorm v = true := by
  match f, cs with
  | 0, cs => simp [parseObjRest] at h
  | f + 1, [] => simp [parseObjRest] at h
  | f + 1, c :: cs =>
    simp only [parseObjRest] at h
    split_ifs at h
    · simp only [Option.some.injEq, Prod.mk.injEq] at h
      rw [← h.1]
      simp [dnorm, dnormM]
    · rcases hs : parseMembers f .nil (c :: cs) with _ | p
      · rw [hs] at h; exact absurd h (by simp [jbind])
      · rw [hs, jbind_some] at h
        simp only [Option.some.injEq, Prod.mk.injEq] at h
        rw [← h.1]
        have := parseMembers_dnorm f .nil (c :: cs) p.1 p.2 (by rw [hs])
          (by simp [dnormM])
        simpa [dnorm] using this
/-- Element lists scanned by the array loop are dict-normal. -/
theorem parseElems_dnorm (f : Nat) (cs : List Char) (l : JList) (r : List Char)
    (h : parseElems f cs = some (l, r)) : dnormL l = true := by
  match f with
  | 0 => simp [parseElems] at h
  | f + 1 =>
    simp only [parseElems] at h
    rcases hs : parseValue f cs with _ | p
    · rw [hs] at h; exact absurd h (by simp [jbind])
    · rw [hs, jbind_some] at h
      exact parseElemsSep_dnorm f p.1 (skipWs p.2) l r h
        (parseValue_dnorm f cs p.1 p.2 hs)
/-- The element-separator step keeps element lists dict-normal. -/
theorem parseElemsSep_dnorm (f : Nat) (v : Json) (cs : List Char) (l : JList)
    (r : List Char) (h : parseElemsSep f v cs = some (l, r))
    (hv : dnorm v = true) : dnormL l = true := by
  match f, cs with
  | 0, cs => simp [parseElemsSep] at h
  | f + 1, [] => simp [parseElemsSep] at h
  | f + 1, c :: r2 =>
    simp only [parseElemsSep] at h
    split_ifs at h
    · simp only [Option.some.injEq, Prod.mk.injEq] at h
      rw [← h.1]
      simp [dnormL, hv]
    · rcases hs : parseElems f (skipWs r2) with _ | p
      · rw [hs] at h; exact absurd h (by simp [jbind])
      · rw [hs, jbind_some] at h
        simp only [Option.some.injEq, Prod.mk.injEq] at h
        rw [← h.1]
        have := parseElems_dnorm f (skipWs r2) p.1 p.2 (by rw [hs])
        simp [dnormL, hv, this]
/-- The member loop keeps the accumulating dict dict-normal. -/
theorem parseMembers_dnorm (f : Nat) (acc : JMembers) (cs : List Char)
    (m : JMembers) (r : List Char) (h : parseMembers f acc cs = some (m, r))
    (hacc : dnormM acc = true) : dnormM m = true := by
  match f with
  | 0 => simp [parseMembers] at h
  | f + 1 =>
    simp only [parseMembers] at h
    split at h
    · rcases hs : parseStringChars (2 * ‹List Char›.length + 2) ‹List Char› with _ | p
      · rw [hs] at h; exact absurd h (by simp [jbind])
      · rw [hs, jbind_some] at h
        split at h
        · exact parseMemberValue_dnorm f acc (String.mk p.1) _ m r h hacc
        · exact absurd h (by simp)
    · exact absurd h (by simp)
/-- The member-value step keeps the accumulating dict dict-normal. -/
theorem parseMemberValue_dnorm (f : Nat) (acc : JMembers) (k : String)
    (cs : List Char) (m : JMembers) (r : List Char)
    (h : parseMemberValue f acc k cs = some (m, r)) (hacc : dnormM acc = true) :
    dnormM m = true := by
  match f with
  | 0 => simp [parseMemberValue] at h
  | f + 1 =>
    simp only [parseMemberValue] at h
    rcases hs : parseValue f cs with _ | p
    · rw [hs] at h; exact absurd h (by simp [jbind])
    · rw [hs, jbind_some] at h
      exact parseMemberSep_dnorm f (mUpd acc k p.1) (skipWs p.2) m r h
        (mUpd_dnorm k p.1 (parseValue_dnorm f cs p.1 p.2 hs) acc hacc)
/-- The member-separator step keeps the accumulating dict dict-normal. -/
theorem parseMemberSep_dnorm (f : Nat) (acc : JMembers) (cs : List Char)
    (m : JMembers) (r : List Char) (h : parseMemberSep f acc cs = some (m, r))
    (hacc : dnormM acc = true) : dnormM m = true := by
  match f, cs with
  | 0, cs => simp [parseMemberSep] at h
  | f + 1, [] => simp [parseMemberSep] at h
  | f + 1, c :: r4 =>
    simp only [parseMemberSep] at h
    split_ifs at h
    · simp only [Option.some.injEq, Prod.mk.injEq] at h
      rw [← h.1]
      exact hacc
    · exact parseMembers_dnorm f acc (skipWs r4) m r h hacc
end

end TapProxy
